import Mathlib

/-!
Verification development for the tree-traversal branching simulator in
`pennylane/devices/qubit/tree_simulate.py`.

The Python source is shallowly embedded here:

* quantum state vectors are lists of real amplitudes (`List ℝ`); the
  squared 2-norm of a complex vector is the sum of the squared moduli of
  its entries, which the real embedding captures faithfully for the
  norm/renormalization logic under verification;
* the external collaborators scoped out by the design document
  (`apply_operation`, `get_final_state`, `measure_final_state`, Kraus
  matrix computation) are parameters: the embedded functions are proved
  correct for every choice of collaborator;
* fallible code paths (Python exceptions) are modelled with `Option` /
  `Except`.

Declarations keep the names of the Python functions they embed
(`branch_state`, `split_circuit_at_nodes`, `combine_measurements`,
`combine_measurements_core`, `TreeTraversalStack` data).
-/

namespace TreeSimulate

/-! ### Small list helpers used throughout -/

/-- Number of `none` entries of a row (unset/pruned slots). -/
def holes {α : Type} (row : List (Option α)) : ℕ := row.countP (·.isNone)

/-- Number of `some` entries of a row (filled slots). -/
def filled {α : Type} (row : List (Option α)) : ℕ := row.countP (·.isSome)

/-- Embedding of `TreeTraversalStack.any_is_empty`: `any(r is None for r in results[depth])`. -/
def anyIsEmpty {α : Type} (row : List (Option α)) : Bool := row.any (·.isNone)

/-- Embedding of `TreeTraversalStack.is_full`: `all(r is not None for r in results[depth])`. -/
def isFull {α : Type} (row : List (Option α)) : Bool := row.all (·.isSome)

theorem isFull_iff_holes_eq_zero {α : Type} (row : List (Option α)) :
    isFull row = true ↔ holes row = 0 := by
  simp only [isFull, holes, List.all_eq_true, List.countP_eq_zero]
  constructor
  · intro h o ho
    cases o with
    | none => exact absurd (h none ho) (by simp)
    | some a => simp
  · intro h o ho
    cases o with
    | none => exact absurd (h none ho) (by simp)
    | some a => simp

theorem anyIsEmpty_iff_not_isFull {α : Type} (row : List (Option α)) :
    anyIsEmpty row = true ↔ ¬ isFull row = true := by
  simp only [anyIsEmpty, isFull, List.any_eq_true, List.all_eq_true]
  constructor
  · rintro ⟨o, ho, hno⟩ h
    cases o with
    | none => exact absurd (h none ho) (by simp)
    | some a => simp at hno
  · intro h
    by_contra hc
    push_neg at hc
    refine h (fun o ho => ?_)
    cases o with
    | none => exact absurd (hc none ho) (by simp)
    | some a => simp

theorem holes_replicate {α : Type} (n : ℕ) :
    holes (List.replicate n (none : Option α)) = n := by
  induction n with
  | zero => rfl
  | succ n ih => simp [holes, List.replicate_succ, List.countP_cons] at *; omega

/-- Setting a `none` slot to `some` removes exactly one hole. -/
theorem holes_set_some {α : Type} (row : List (Option α)) (i : ℕ) (a : α)
    (hi : i < row.length) (hnone : row.getD i none = none) :
    holes (row.set i (some a)) + 1 = holes row := by
  induction row generalizing i with
  | nil => simp at hi
  | cons x t ih =>
    cases i with
    | zero =>
      simp only [List.getD_cons_zero] at hnone
      subst hnone
      simp [holes, List.countP_cons]
    | succ j =>
      simp only [List.length_cons, Nat.succ_lt_succ_iff] at hi
      simp only [List.getD_cons_succ] at hnone
      have := ih j hi hnone
      simp [holes, List.set, List.countP_cons] at *
      omega

theorem getD_set_self {α : Type} (l : List α) (i : ℕ) (a d : α) (h : i < l.length) :
    (l.set i a).getD i d = a := by
  induction l generalizing i with
  | nil => simp at h
  | cons x t ih =>
    cases i with
    | zero => rfl
    | succ j =>
      simp only [List.length_cons, Nat.succ_lt_succ_iff] at h
      simpa using ih j h

theorem getD_set_ne {α : Type} (l : List α) (i j : ℕ) (a d : α) (h : i ≠ j) :
    (l.set i a).getD j d = l.getD j d := by
  induction l generalizing i j with
  | nil => simp
  | cons x t ih =>
    cases i with
    | zero =>
      cases j with
      | zero => exact absurd rfl h
      | succ k => rfl
    | succ i' =>
      cases j with
      | zero => rfl
      | succ k =>
        simpa using ih i' k (by omega)

theorem set_append_length {α : Type} (l₁ l₂ : List α) (a : α) :
    (l₁ ++ l₂).set l₁.length a = l₁ ++ l₂.set 0 a := by
  induction l₁ with
  | nil => rfl
  | cons x t ih => simp [ih]

theorem getD_append_left {α : Type} (l₁ l₂ : List α) (i : ℕ) (d : α) (h : i < l₁.length) :
    (l₁ ++ l₂).getD i d = l₁.getD i d := by
  induction l₁ generalizing i with
  | nil => simp at h
  | cons x t ih =>
    cases i with
    | zero => rfl
    | succ j =>
      simp only [List.length_cons, Nat.succ_lt_succ_iff] at h
      simpa using ih j h

theorem getD_append_right {α : Type} (l₁ l₂ : List α) (i : ℕ) (d : α) (h : l₁.length ≤ i) :
    (l₁ ++ l₂).getD i d = l₂.getD (i - l₁.length) d := by
  induction l₁ generalizing i with
  | nil => simp
  | cons x t ih =>
    cases i with
    | zero => simp at h
    | succ j =>
      simp only [List.length_cons, Nat.succ_le_succ_iff] at h
      simpa using ih j h

/-! ### `branch_state` (value level)

`branch_state(state, op, index)` applies the `index`-th Kraus operator of
channel `op` to `state` through the external collaborator
`apply_operation` (out of scope per the design document; `op.applyKraus`
below is the composite "look up the `index`-th Kraus matrix and apply
it"), then computes the vector 2-norm of the collapsed state, prunes when
the norm is below `NORM_TOL`, renormalizes otherwise, and reports the
squared norm as the branch probability (overridden to `1.0` for
post-selected mid-circuit measurements). -/

/-- The constant `NORM_TOL = 1e-10` from the source. -/
noncomputable def NORM_TOL : ℝ := 1 / 10 ^ 10

/-- Squared 2-norm of a state vector. -/
def squaredNorm (s : List ℝ) : ℝ := (s.map (fun a => a ^ 2)).sum

/-- The function `qml.math.norm`: the vector 2-norm. -/
noncomputable def qmlNorm (s : List ℝ) : ℝ := Real.sqrt (squaredNorm s)

/-- A branching node of the circuit (`Channel`, possibly a `MidMeasureMP`).
`applyKraus i` is the external collaborator composite
`apply_operation(qml.QubitUnitary(kraus_matrices(op)[i], wires), ·)`. -/
structure ChannelOp where
  applyKraus : ℕ → List ℝ → List ℝ
  isMidMeasure : Bool
  postselect : Option ℤ

/-- Embedding of `branch_state` (tree_simulate.py, lines 300-321):
```
state = apply_operation(qml.QubitUnitary(matrix, wires=op.wires), state)
norm = qml.math.norm(state)
if norm < NORM_TOL:
    return state, 0.0
state /= norm
if isinstance(op, MidMeasureMP) and op.postselect is not None:
    norm = 1.0
return state, norm**2
```
-/
noncomputable def branch_state (state : List ℝ) (op : ChannelOp) (index : ℕ) :
    List ℝ × ℝ :=
  let state := op.applyKraus index state
  let norm := qmlNorm state
  if norm < NORM_TOL then (state, 0.0)
  else
    let state := state.map (fun a => a / norm)
    let norm := if op.isMidMeasure = true ∧ op.postselect ≠ none then (1.0 : ℝ) else norm
    (state, norm ^ 2)

theorem squaredNorm_nonneg (s : List ℝ) : 0 ≤ squaredNorm s := by
  refine List.sum_nonneg ?_
  intro x hx
  simp only [List.mem_map] at hx
  obtain ⟨a, _, rfl⟩ := hx
  positivity

theorem sq_qmlNorm (s : List ℝ) : qmlNorm s ^ 2 = squaredNorm s :=
  Real.sq_sqrt (squaredNorm_nonneg s)

/-- Case analysis of `branch_state`, mirroring its three outcomes: prune
below `NORM_TOL`, renormalize-and-report-squared-norm, and the
post-selection probability override. -/
theorem branch_state_cases (op : ChannelOp) (state : List ℝ) (index : ℕ) :
    (qmlNorm (op.applyKraus index state) < NORM_TOL →
      branch_state state op index = (op.applyKraus index state, 0.0)) ∧
    (¬ qmlNorm (op.applyKraus index state) < NORM_TOL →
      (branch_state state op index).1
        = (op.applyKraus index state).map
            (fun a => a / qmlNorm (op.applyKraus index state))) ∧
    (¬ qmlNorm (op.applyKraus index state) < NORM_TOL →
      ¬ (op.isMidMeasure = true ∧ op.postselect ≠ none) →
      (branch_state state op index).2 = squaredNorm (op.applyKraus index state)) ∧
    (¬ qmlNorm (op.applyKraus index state) < NORM_TOL →
      op.isMidMeasure = true → op.postselect ≠ none →
      (branch_state state op index).2 = 1) := by
  refine ⟨?_, ?_, ?_, ?_⟩
  · intro h
    simp only [branch_state]
    rw [if_pos h]
  · intro h
    simp only [branch_state]
    rw [if_neg h]
  · intro h hps
    simp only [branch_state]
    rw [if_neg h, if_neg hps]
    exact sq_qmlNorm _
  · intro h hm hp
    simp only [branch_state]
    rw [if_neg h, if_pos ⟨hm, hp⟩]
    norm_num

/-! ### `branch_state` at buffer granularity

The Python implementation works on NumPy arrays.  `state =
apply_operation(...)` rebinds the local name `state` to the array
returned by the collaborator — per the design document's resource model,
a freshly owned buffer — and the subsequent `state /= norm` divides that
fresh array in place.  The caller's array (`stack.states[depth]`) is
never written.  To state this aliasing property we model the store of
NumPy buffers explicitly: a heap is a list of buffers, a state is a
buffer index, allocation appends. -/

/-- The store of NumPy array buffers; a buffer id is an index into `bufs`. -/
structure Heap where
  bufs : List (List ℝ)

/-- Read the buffer with id `i` (empty vector for an unused id). -/
def Heap.get (h : Heap) (i : ℕ) : List ℝ := h.bufs.getD i []

/-- Overwrite buffer `i` in place. -/
def Heap.write (h : Heap) (i : ℕ) (v : List ℝ) : Heap := ⟨h.bufs.set i v⟩

/-- Allocate a fresh buffer holding `v`; returns the new heap and the fresh id. -/
def Heap.alloc (h : Heap) (v : List ℝ) : Heap × ℕ := (⟨h.bufs ++ [v]⟩, h.bufs.length)

/-- Buffer-level rendering of `branch_state`: `apply_operation` returns a
freshly allocated output array (the collaborator contract of the design
document's resource model), after which `state /= norm` mutates that
fresh array in place; the input buffer `sid` is only ever read. -/
noncomputable def branch_state_buffers (h : Heap) (sid : ℕ) (op : ChannelOp)
    (index : ℕ) : Heap × ℕ × ℝ :=
  let (h, nid) := h.alloc (op.applyKraus index (h.get sid))
  let norm := qmlNorm (h.get nid)
  if norm < NORM_TOL then (h, nid, 0.0)
  else
    let h := h.write nid ((h.get nid).map (fun a => a / norm))
    let norm := if op.isMidMeasure = true ∧ op.postselect ≠ none then (1.0 : ℝ) else norm
    (h, nid, norm ^ 2)

/-! ### `split_circuit_at_nodes`

Circuits are a list of operations (each either a `Channel` or not)
followed by terminal measurements.  The splitter cuts the operation list
at every channel, the channels themselves belonging to no segment. -/

/-- A circuit operation; `tag` is an opaque payload distinguishing
operations, `isChannel` says whether the operation is a `Channel`
(a branch node). -/
structure Operation where
  isChannel : Bool
  tag : ℕ
deriving DecidableEq

/-- A quantum script: operations, terminal measurements (opaque tags here;
the splitter only copies them), and shots. -/
structure Circuit where
  operations : List Operation
  measurements : List ℕ
  shots : ℕ
deriving DecidableEq

/-- Embedding of the generator
`((i, op) for i, op in enumerate(circuit) if isinstance(op, Channel))`:
the positions (starting at `start`) of the channels in the operation
list.  (Iterating a `QuantumScript` yields operations before
measurements and measurements are never channels, so enumerating the
operations suffices.) -/
def channelSplits (start : ℕ) : List Operation → List ℕ
  | [] => []
  | op :: rest =>
    if op.isChannel then start :: channelSplits (start + 1) rest
    else channelSplits (start + 1) rest

/-- Embedding of `split_circuit_at_nodes` (tree_simulate.py, lines 237-269):
```
first = 0
for last, _ in split_gen:
    circuits.append(QuantumScript(circuit.operations[first:last], [], shots=circuit.shots))
    first = last + 1
circuits.append(QuantumScript(circuit.operations[first:], circuit.measurements, shots=circuit.shots))
```
`operations[first:last]` is `(operations.drop first).take (last - first)`. -/
def split_circuit_at_nodes (circuit : Circuit) : List Circuit :=
  let folded := (channelSplits 0 circuit.operations).foldl
    (fun (acc : List Circuit × ℕ) last =>
      (acc.1 ++ [{ operations := (circuit.operations.drop acc.2).take (last - acc.2),
                   measurements := [], shots := circuit.shots }],
       last + 1))
    ([], 0)
  folded.1 ++ [{ operations := circuit.operations.drop folded.2,
                 measurements := circuit.measurements, shots := circuit.shots }]

/-- Reference splitter: split a list of operations at (and dropping) every
channel.  Used to characterize `split_circuit_at_nodes`. -/
def splitOnChannels : List Operation → List (List Operation)
  | [] => [[]]
  | op :: rest =>
    if op.isChannel then [] :: splitOnChannels rest
    else
      match splitOnChannels rest with
      | [] => [[op]]
      | s :: ss => (op :: s) :: ss

/-- Interleave segments with the channels that separated them:
`reassemble [s₀, s₁, ..., sₙ] [c₁, ..., cₙ] = s₀ ++ [c₁] ++ s₁ ++ ... ++ [cₙ] ++ sₙ`. -/
def reassemble : List (List Operation) → List Operation → List Operation
  | [], _ => []
  | s :: ss, [] => s ++ ss.flatten
  | s :: ss, c :: cs => s ++ c :: reassemble ss cs

theorem splitOnChannels_ne_nil (ops : List Operation) : splitOnChannels ops ≠ [] := by
  cases ops with
  | nil => simp [splitOnChannels]
  | cons op rest =>
    simp only [splitOnChannels]
    split
    · simp
    · split <;> simp

theorem splitOnChannels_length (ops : List Operation) :
    (splitOnChannels ops).length = ops.countP (·.isChannel) + 1 := by
  induction ops with
  | nil => rfl
  | cons op rest ih =>
    simp only [splitOnChannels, List.countP_cons]
    by_cases hc : op.isChannel
    · simp [hc, ih]
    · simp only [hc, if_neg, Bool.false_eq_true, ite_false]
      cases hsp : splitOnChannels rest with
      | nil => exact absurd hsp (splitOnChannels_ne_nil rest)
      | cons s ss =>
        have := ih
        rw [hsp] at this
        simp only [List.length_cons] at this ⊢
        simp [hc, this]

theorem splitOnChannels_no_channels (ops : List Operation) :
    ∀ seg ∈ splitOnChannels ops, ∀ o ∈ seg, o.isChannel = false := by
  induction ops with
  | nil =>
    intro seg hseg o ho
    simp only [splitOnChannels, List.mem_singleton] at hseg
    subst hseg
    simp at ho
  | cons op rest ih =>
    intro seg hseg o ho
    simp only [splitOnChannels] at hseg
    by_cases hc : op.isChannel
    · rw [if_pos hc] at hseg
      rcases List.mem_cons.mp hseg with h | h
      · subst h; simp at ho
      · exact ih seg h o ho
    · rw [if_neg hc] at hseg
      cases hsp : splitOnChannels rest with
      | nil => exact absurd hsp (splitOnChannels_ne_nil rest)
      | cons s ss =>
        rw [hsp] at hseg
        rcases List.mem_cons.mp hseg with h | h
        · subst h
          rcases List.mem_cons.mp ho with h' | h'
          · subst h'; simpa using hc
          · exact ih s (hsp ▸ List.mem_cons_self s ss) o h'
        · exact ih seg (hsp ▸ List.mem_cons_of_mem s h) o ho

/-- If a list has no channels, splitting yields the single segment. -/
theorem splitOnChannels_of_no_channels (ops : List Operation)
    (h : ops.countP (·.isChannel) = 0) : splitOnChannels ops = [ops] := by
  induction ops with
  | nil => rfl
  | cons op rest ih =>
    simp only [List.countP_cons] at h
    by_cases hc : op.isChannel
    · simp [hc] at h
    · have hrest : rest.countP (·.isChannel) = 0 := by
        by_cases hb : (op.isChannel : Bool) = true
        · exact absurd hb hc
        · simpa [hb] using h
      simp [splitOnChannels, hc, ih hrest]

/-- Splitting then interleaving with the channels reconstructs the
operation list: every segment consists of precisely the operations
strictly between its two surrounding channels, in order. -/
theorem reassemble_splitOnChannels (ops : List Operation) :
    reassemble (splitOnChannels ops) (ops.filter (·.isChannel)) = ops := by
  induction ops with
  | nil => rfl
  | cons op rest ih =>
    by_cases hc : op.isChannel
    · simp only [splitOnChannels, hc, if_true, List.filter_cons, if_pos hc]
      simp [reassemble, ih]
    · have hfilter : (op :: rest).filter (·.isChannel) = rest.filter (·.isChannel) := by
        simp [List.filter_cons, hc]
      rw [hfilter]
      simp only [splitOnChannels, hc, Bool.false_eq_true, ite_false]
      cases hsp : splitOnChannels rest with
      | nil => exact absurd hsp (splitOnChannels_ne_nil rest)
      | cons s ss =>
        rw [hsp] at ih
        cases hf : rest.filter (·.isChannel) with
        | nil =>
          have hcount : rest.countP (·.isChannel) = 0 := by
            have := List.countP_eq_length_filter (·.isChannel) rest
            rw [hf] at this
            simpa using this
          have := splitOnChannels_of_no_channels rest hcount
          rw [this] at hsp
          injection hsp with h1 h2
          subst h1; subst h2
          simp [reassemble]
        | cons c cs =>
          rw [hf] at ih
          simp only [reassemble] at ih ⊢
          simp [ih]

/-- The circuit segments produced by the splitter's `for` loop, as a
function of the remaining channel positions and the running `first`
index. -/
def segsOf (OPS : List Operation) (sh : ℕ) : ℕ → List ℕ → List Circuit
  | _, [] => []
  | first, p :: ps =>
    { operations := (OPS.drop first).take (p - first), measurements := [], shots := sh }
      :: segsOf OPS sh (p + 1) ps

/-- The value of `first` after the splitter's `for` loop. -/
def finalFirst : ℕ → List ℕ → ℕ
  | f, [] => f
  | _, p :: ps => finalFirst (p + 1) ps

theorem split_foldl_eq (OPS : List Operation) (sh : ℕ) (ps : List ℕ) :
    ∀ (acc : List Circuit) (first : ℕ),
      ps.foldl
        (fun (acc : List Circuit × ℕ) last =>
          (acc.1 ++ [{ operations := (OPS.drop acc.2).take (last - acc.2),
                       measurements := [], shots := sh }],
           last + 1))
        (acc, first)
      = (acc ++ segsOf OPS sh first ps, finalFirst first ps) := by
  induction ps with
  | nil => intro acc first; simp [segsOf, finalFirst]
  | cons p ps ih =>
    intro acc first
    simp only [List.foldl_cons]
    rw [ih]
    simp [segsOf, finalFirst, List.append_assoc]

theorem channelSplits_ge (ops : List Operation) :
    ∀ (start p : ℕ), p ∈ channelSplits start ops → start ≤ p := by
  induction ops with
  | nil => intro start p h; simp [channelSplits] at h
  | cons op rest ih =>
    intro start p h
    simp only [channelSplits] at h
    by_cases hc : op.isChannel
    · rw [if_pos hc] at h
      rcases List.mem_cons.mp h with h' | h'
      · omega
      · have := ih (start + 1) p h'
        omega
    · rw [if_neg hc] at h
      have := ih (start + 1) p h
      omega

theorem drop_succ_of_drop_cons {α : Type} (l : List α) (k : ℕ) (x : α) (t : List α)
    (h : l.drop k = x :: t) : l.drop (k + 1) = t := by
  have : l.drop (k + 1) = (l.drop k).drop 1 := by
    rw [List.drop_drop]
  rw [this, h]
  rfl

/-- Core bridge: the loop's segments followed by the trailing slice agree
with the reference splitter, at every suffix of the operation list. -/
theorem segsOf_channelSplits (OPS : List Operation) (sh : ℕ) :
    ∀ (ops : List Operation) (k : ℕ), OPS.drop k = ops →
      (segsOf OPS sh k (channelSplits k ops)).map (fun c => c.operations)
          ++ [OPS.drop (finalFirst k (channelSplits k ops))]
        = splitOnChannels ops := by
  intro ops
  induction ops with
  | nil =>
    intro k h
    simp [channelSplits, segsOf, finalFirst, h, splitOnChannels]
  | cons op rest ih =>
    intro k h
    have hrest : OPS.drop (k + 1) = rest := drop_succ_of_drop_cons OPS k op rest h
    by_cases hc : op.isChannel
    · simp only [channelSplits, hc, if_true, segsOf, finalFirst, Nat.sub_self,
        List.take_zero, List.map_cons, splitOnChannels]
      rw [List.cons_append]
      rw [ih (k + 1) hrest]
    · have hsplits : channelSplits k (op :: rest) = channelSplits (k + 1) rest := by
        simp [channelSplits, hc]
      rw [hsplits]
      have ihr := ih (k + 1) hrest
      simp only [splitOnChannels, hc, Bool.false_eq_true, ite_false]
      cases hps : channelSplits (k + 1) rest with
      | nil =>
        rw [hps] at ihr
        simp only [segsOf, finalFirst, List.map_nil, List.nil_append] at ihr ⊢
        cases hsp : splitOnChannels rest with
        | nil => exact absurd hsp (splitOnChannels_ne_nil rest)
        | cons s ss =>
          rw [hsp] at ihr
          injection ihr with h1 h2
          subst h1
          have hss : ss = [] := h2.symm
          subst hss
          rw [h, hrest]
      | cons p ps =>
        have hpk : k + 1 ≤ p := channelSplits_ge rest (k + 1) p (by rw [hps]; exact List.mem_cons_self p ps)
        rw [hps] at ihr
        simp only [segsOf, finalFirst, List.map_cons] at ihr ⊢
        cases hsp : splitOnChannels rest with
        | nil => exact absurd hsp (splitOnChannels_ne_nil rest)
        | cons s ss =>
          rw [hsp] at ihr
          rw [List.cons_append] at ihr
          injection ihr with h1 h2
          rw [List.cons_append, h2]
          congr 1
          rw [← h1, h]
          have htake : (op :: rest).take (p - k) = op :: rest.take (p - (k + 1)) := by
            have : p - k = (p - (k + 1)) + 1 := by omega
            rw [this, List.take_succ_cons]
          rw [htake, hrest]

theorem segsOf_measurements (OPS : List Operation) (sh : ℕ) :
    ∀ (ps : List ℕ) (first : ℕ) (c : Circuit),
      c ∈ segsOf OPS sh first ps → c.measurements = [] := by
  intro ps
  induction ps with
  | nil => intro first c h; simp [segsOf] at h
  | cons p ps ih =>
    intro first c h
    simp only [segsOf] at h
    rcases List.mem_cons.mp h with h' | h'
    · subst h'; rfl
    · exact ih (p + 1) c h'

/-- Unfolding of `split_circuit_at_nodes` as loop segments plus the final
segment carrying the measurements. -/
theorem split_circuit_at_nodes_eq (c : Circuit) :
    split_circuit_at_nodes c
      = segsOf c.operations c.shots 0 (channelSplits 0 c.operations)
        ++ [{ operations :=
                c.operations.drop (finalFirst 0 (channelSplits 0 c.operations)),
              measurements := c.measurements, shots := c.shots }] := by
  unfold split_circuit_at_nodes
  rw [split_foldl_eq c.operations c.shots (channelSplits 0 c.operations) [] 0]
  simp

theorem split_circuit_at_nodes_map_operations (c : Circuit) :
    (split_circuit_at_nodes c).map (fun s => s.operations)
      = splitOnChannels c.operations := by
  rw [split_circuit_at_nodes_eq]
  rw [List.map_append]
  simpa using segsOf_channelSplits c.operations c.shots c.operations 0 (by simp)

theorem split_circuit_at_nodes_length (c : Circuit) :
    (split_circuit_at_nodes c).length = c.operations.countP (·.isChannel) + 1 := by
  have := congrArg List.length (split_circuit_at_nodes_map_operations c)
  simpa [splitOnChannels_length] using this

/-! ### `combine_measurements` and `combine_measurements_core`

The `singledispatch` combiner is dispatch on the runtime type of the
terminal measurement process; we embed the dispatch as a match on a
closed enumeration of measurement types.  The per-branch value space `V`
is abstract: for `ExpectationMP` the source's values are scalars, for
`ProbabilityMP` they are probability vectors (`qml.math.stack`ed into a
matrix before `qml.math.dot`); in both cases the combination is the
probability-weighted sum in the value space, which `qml_dot` expresses
uniformly. -/

/-- The runtime type (`type(mp).__name__`) of a terminal measurement. -/
inductive MeasProc where
  | ExpectationMP
  | ProbabilityMP
  | SampleMP
  | CountsMP
  | VarianceMP
deriving DecidableEq

def MeasProc.typeName : MeasProc → String
  | .ExpectationMP => "ExpectationMP"
  | .ProbabilityMP => "ProbabilityMP"
  | .SampleMP => "SampleMP"
  | .CountsMP => "CountsMP"
  | .VarianceMP => "VarianceMP"

/-- The product `qml.math.dot(probs, results)`: probability-weighted sum of values. -/
def qml_dot {V : Type} [AddCommMonoid V] [SMul ℝ V] (probs : List ℝ)
    (results : List V) : V :=
  ((probs.zip results).map (fun pv => pv.1 • pv.2)).sum

/-- Embedding of `combine_measurements_core` (lines 339-357): the
`ExpectationMP` and `ProbabilityMP` registrations both return
`qml.math.dot(probs, results)` (the source notes the `ProbabilityMP`
implementation "is the same as for `ExpectationMP`"); the base
implementation raises
`TypeError(f"tree_simulate does not support {type(mp).__name__}")`. -/
def combine_measurements_core {V : Type} [AddCommMonoid V] [SMul ℝ V]
    (mp : MeasProc) (probs : List ℝ) (results : List V) : Except String V :=
  match mp with
  | .ExpectationMP => .ok (qml_dot probs results)
  | .ProbabilityMP => .ok (qml_dot probs results)
  | mp => .error ("tree_simulate does not support " ++ mp.typeName)

/-- The comprehension `[res[i] for res in all_results if res[i] is not None]`: gather the
`i`-th component of each per-branch result tuple, skipping pruned (`None`)
components.  A `None` row makes the source's `res[i]` raise `TypeError`. -/
def gatherIdx {V : Type} (i : ℕ) :
    List (Option (List (Option V))) → Except String (List V)
  | [] => .ok []
  | none :: _ => .error ("TypeError: NoneType is not subscriptable")
  | some res :: rest =>
    match res.getD i none with
    | none => gatherIdx i rest
    | some v =>
      match gatherIdx i rest with
      | .error e => .error e
      | .ok tail => .ok (v :: tail)

/-- The body of `for i, mp in enumerate(terminal_measurements)` in
`combine_measurements`, with `i` the running index. -/
def combineLoop {V : Type} [AddCommMonoid V] [SMul ℝ V]
    (aps : List (Option ℝ)) (all_results : List (Option (List (Option V)))) :
    ℕ → List MeasProc → Except String (List V)
  | _, [] => .ok []
  | i, mp :: rest =>
    match gatherIdx i all_results with
    | .error e => .error e
    | .ok vals =>
      match combine_measurements_core mp (aps.filterMap id) vals with
      | .error e => .error e
      | .ok v =>
        match combineLoop aps all_results (i + 1) rest with
        | .error e => .error e
        | .ok tail => .ok (v :: tail)

/-- Embedding of `combine_measurements` (lines 324-336).
`all_probs = stack.probs[depth]` may be the uninitialized `None` (the
source then raises `TypeError` on iteration); `all_results =
stack.results[depth]` has one optional result tuple per branch.
`probs = [p for p in all_probs if p is not None]` is
`aps.filterMap id`, recomputed in each loop iteration as in the source. -/
def combine_measurements {V : Type} [AddCommMonoid V] [SMul ℝ V]
    (terminal_measurements : List MeasProc)
    (all_probs : Option (List (Option ℝ)))
    (all_results : List (Option (List (Option V)))) : Except String (List V) :=
  match all_probs with
  | none => .error ("TypeError: NoneType is not iterable")
  | some aps => combineLoop aps all_results 0 terminal_measurements

/-- The branches kept after filtering, paired with their probabilities:
branch `b` is kept for measurement `i` iff both its probability slot and
the `i`-th component of its result tuple are set. -/
def keptPairs {V : Type} (i : ℕ) (aps : List (Option ℝ))
    (tuples : List (List (Option V))) : List (ℝ × V) :=
  (aps.zip tuples).filterMap (fun pt =>
    match pt.1, pt.2.getD i none with
    | some p, some v => some (p, v)
    | _, _ => none)

theorem gatherIdx_map_some {V : Type} (i : ℕ) (tuples : List (List (Option V))) :
    gatherIdx i (tuples.map some) = .ok (tuples.filterMap (fun t => t.getD i none)) := by
  induction tuples with
  | nil => rfl
  | cons t ts ih =>
    simp only [List.map_cons, gatherIdx, List.filterMap_cons]
    cases ht : t.getD i none with
    | none => simpa [ht] using ih
    | some v => simp [ht, ih]

/-- The two independent comprehension filters of the source (on
probabilities and on per-measurement values) keep the same branches, in
the same order, whenever unset probabilities correspond exactly to
pruned values. -/
theorem filters_align {V : Type} (i : ℕ) :
    ∀ (aps : List (Option ℝ)) (tuples : List (List (Option V))),
      aps.length = tuples.length →
      (∀ b, b < tuples.length →
        (aps.getD b none = none ↔ (tuples.getD b []).getD i none = none)) →
      (aps.filterMap id).zip (tuples.filterMap (fun t => t.getD i none))
        = keptPairs i aps tuples := by
  intro aps
  induction aps with
  | nil =>
    intro tuples hlen _
    have : tuples = [] := by
      cases tuples with
      | nil => rfl
      | cons t ts => simp at hlen
    subst this
    rfl
  | cons p? ps ih =>
    intro tuples hlen hcorr
    cases tuples with
    | nil => simp at hlen
    | cons t ts =>
      simp only [List.length_cons, Nat.succ_inj'] at hlen
      have hcorr0 := hcorr 0 (by simp)
      simp only [List.getD_cons_zero] at hcorr0
      have hcorrS : ∀ b, b < ts.length →
          (ps.getD b none = none ↔ (ts.getD b []).getD i none = none) := by
        intro b hb
        have := hcorr (b + 1) (by simpa using Nat.succ_lt_succ hb)
        simpa using this
      cases p? with
      | none =>
        have ht : t.getD i none = none := hcorr0.mp rfl
        have ihr := ih ts hlen hcorrS
        simp only [keptPairs, List.zip_cons_cons, List.filterMap_cons, ht, id] at ihr ⊢
        exact ihr
      | some p =>
        have ht : ∃ v, t.getD i none = some v := by
          cases hv : t.getD i none with
          | none => exact absurd (hcorr0.mpr hv) (by simp)
          | some v => exact ⟨v, rfl⟩
        obtain ⟨v, hv⟩ := ht
        have ihr := ih ts hlen hcorrS
        simp only [keptPairs, List.zip_cons_cons, List.filterMap_cons, hv, id] at ihr ⊢
        rw [ihr]

theorem combineLoop_weighted_sum {V : Type} [AddCommMonoid V] [SMul ℝ V]
    (aps : List (Option ℝ)) (tuples : List (List (Option V)))
    (hlen : aps.length = tuples.length) :
    ∀ (tm : List MeasProc) (i₀ : ℕ),
      (∀ mp ∈ tm, mp = .ExpectationMP ∨ mp = .ProbabilityMP) →
      (∀ j, j < tm.length → ∀ b, b < tuples.length →
        (aps.getD b none = none ↔ (tuples.getD b []).getD (i₀ + j) none = none)) →
      combineLoop aps (tuples.map some) i₀ tm
        = .ok ((List.range tm.length).map (fun j =>
            ((keptPairs (i₀ + j) aps tuples).map (fun pv => pv.1 • pv.2)).sum)) := by
  intro tm
  induction tm with
  | nil => intro i₀ _ _; rfl
  | cons mp rest ih =>
    intro i₀ hkinds hcorr
    have hcorr0 : ∀ b, b < tuples.length →
        (aps.getD b none = none ↔ (tuples.getD b []).getD i₀ none = none) := by
      intro b hb
      simpa using hcorr 0 (by simp) b hb
    have halign := filters_align i₀ aps tuples hlen hcorr0
    have hcore : combine_measurements_core mp (aps.filterMap id)
        (tuples.filterMap (fun t => t.getD i₀ none))
        = .ok (((keptPairs i₀ aps tuples).map (fun pv => pv.1 • pv.2)).sum) := by
      rcases hkinds mp (List.mem_cons_self _ _) with h | h <;>
        (subst h; simp only [combine_measurements_core, qml_dot]; rw [halign])
    have ihr := ih (i₀ + 1) (fun m hm => hkinds m (List.mem_cons_of_mem _ hm))
      (fun j hj b hb => by
        have h := hcorr (j + 1) (by simpa using Nat.succ_lt_succ hj) b hb
        have he : i₀ + (j + 1) = i₀ + 1 + j := by omega
        rw [he] at h
        exact h)
    simp only [combineLoop, gatherIdx_map_some, hcore, ihr]
    simp only [List.length_cons]
    rw [List.range_succ_eq_map, List.map_cons, List.map_map]
    refine congrArg Except.ok ?_
    refine congrArg₂ List.cons (by simp) ?_
    refine List.map_congr_left ?_
    intro j hj
    simp only [Function.comp]
    have he : i₀ + 1 + j = i₀ + (j + 1) := by omega
    rw [he]

/-- Claim C5: when every result slot at a depth is set,
`combine_measurements` drops per-measurement values that are `None`
(pruned branches) together with the correspondingly unset probabilities,
and for expectation- and probability-type terminal measurements returns
the probability-weighted sum `Σ probs[i] • values[i]` over the kept
branches. -/
theorem combine_measurements_weighted_sum {V : Type} [AddCommMonoid V] [SMul ℝ V]
    (tm : List MeasProc) (aps : List (Option ℝ)) (tuples : List (List (Option V)))
    (hlen : aps.length = tuples.length)
    (hkinds : ∀ mp ∈ tm, mp = .ExpectationMP ∨ mp = .ProbabilityMP)
    (hcorr : ∀ i, i < tm.length → ∀ b, b < tuples.length →
      (aps.getD b none = none ↔ (tuples.getD b []).getD i none = none)) :
    combine_measurements tm (some aps) (tuples.map some)
      = .ok ((List.range tm.length).map (fun i =>
          ((keptPairs i aps tuples).map (fun pv => pv.1 • pv.2)).sum)) := by
  have h := combineLoop_weighted_sum aps tuples hlen tm 0 hkinds
    (fun j hj b hb => by simpa using hcorr j hj b hb)
  simpa [combine_measurements] using h

theorem combine_measurements_weighted_sum_witness :
    combine_measurements [MeasProc.ExpectationMP]
        (some [some (1/2 : ℝ), none, some (1/2)])
        (([[some (2 : ℝ)], [none], [some 4]]).map some)
      = .ok ((List.range 1).map (fun i =>
          ((keptPairs i [some (1/2 : ℝ), none, some (1/2)]
              [[some (2 : ℝ)], [none], [some 4]]).map
            (fun pv => pv.1 • pv.2)).sum)) := by
  refine combine_measurements_weighted_sum _ _ _ rfl ?_ ?_
  · intro mp hmp
    simp only [List.mem_singleton] at hmp
    exact Or.inl hmp
  · intro i hi b hb
    norm_num at hi hb
    subst hi
    interval_cases b <;> simp

/-- Claim C7: `combine_measurements_core` combines exactly the
expectation-value and probability measurement kinds; every other kind is
rejected with a `TypeError` whose message names the offending kind. -/
theorem combine_measurements_core_supported {V : Type} [AddCommMonoid V] [SMul ℝ V]
    (mp : MeasProc) (probs : List ℝ) (results : List V) :
    ((mp = .ExpectationMP ∨ mp = .ProbabilityMP) ↔
      ∃ v, combine_measurements_core mp probs results = .ok v) ∧
    (mp ≠ .ExpectationMP → mp ≠ .ProbabilityMP →
      combine_measurements_core mp probs results
        = .error ("tree_simulate does not support " ++ mp.typeName)) := by
  cases mp <;> simp [combine_measurements_core]

theorem combine_measurements_core_supported_witness :
    combine_measurements_core MeasProc.SampleMP [] ([] : List ℝ)
      = .error ("tree_simulate does not support " ++ MeasProc.SampleMP.typeName) :=
  (combine_measurements_core_supported MeasProc.SampleMP [] ([] : List ℝ)).2
    (by simp) (by simp)

/-! ### The traversal driver of `tree_simulate`

The driver's `while stack.any_is_empty(1)` loop is embedded as a step
function on an explicit state record mirroring the loop's mutable data
(`depth`, `branch_current`, and the `TreeTraversalStack` fields `probs`,
`results`, `states`).  Result tuples are `List (Option V)` with an
abstract per-measurement value type `V` (pruned slots hold the
`(None,) * len(terminal_measurements)` tuple).  The collaborators the
loop calls — `branch_state`, `get_final_state` (together with the
`QuantumScript`/`prepend_state_prep`/`cast_to_mid_measurements` plumbing
that only packages its arguments), `measure_final_state` (including the
single-measurement tupling) and `combine_measurements` — are parameters,
so every theorem below holds for all collaborator behaviours.  Each step
additionally reports the trace of collaborator calls it makes, which is
how "segment simulation is never invoked for a pruned branch" is stated.
Python exceptions abort `tree_simulate`; a step that would raise returns
`none`. -/

/-- Static data of one `tree_simulate` call: `n = n_nodes`, `k d =
n_kraus[d]` for `1 ≤ d ≤ n` (`n_kraus[0]` is `None` in the source; the
paths that would evaluate it are modelled as raising), and `m =
len(terminal_measurements)`. -/
structure Params where
  n : ℕ
  k : ℕ → ℕ
  m : ℕ

/-- The external collaborators invoked by the driver loop.
`branchState state d b` stands for
`branch_state(stack.states[depth], nodes[depth], branch_current[depth])`;
`getFinalState d branch init` for `get_final_state` on segment `d` with
`cast_to_mid_measurements(branch_current)` and the prepended initial
state (`none` at depth 0, where `stack.states[0]` is `None` and
`prepend_state_prep` builds the all-zeros state); `measureFinal` for
`measure_final_state` (returning the result tuple, already wrapped when
there is a single terminal measurement); `combine` for
`combine_measurements` on the stack rows at a depth. -/
structure Collaborators (Q V : Type) where
  branchState : Q → ℕ → ℕ → Q × ℝ
  getFinalState : ℕ → List ℕ → Option Q → Q
  measureFinal : List ℕ → Q → List (Option V)
  combine : Option (List (Option ℝ)) → List (Option (List (Option V))) → List (Option V)

/-- The loop state: `depth`, `branch_current` and the
`TreeTraversalStack` rows (`probs`, `results`, `states`), each a list of
`n + 1` per-depth slots. -/
structure TraversalState (Q V : Type) where
  depth : ℕ
  branch : List ℕ
  probs : List (Option (List (Option ℝ)))
  results : List (List (Option (List (Option V))))
  states : List (Option Q)

/-- One collaborator call, as recorded in a step's trace. -/
inductive TraceEv where
  | branchStateCall (d b : ℕ)
  | getFinalStateCall (d : ℕ)
  | measureFinalCall (d : ℕ)
  | combineCall (d : ℕ)
deriving DecidableEq

/-- The slice assignment `branch_current[d:] = 0`. -/
def zeroFrom : List ℕ → ℕ → List ℕ
  | [], _ => []
  | _ :: t, 0 => 0 :: zeroFrom t 0
  | x :: t, d + 1 => x :: zeroFrom t d

/-- The tail of a loop iteration shared by the depth-0 and collapsed
branches: run `get_final_state` on the current segment, then either
record a leaf measurement and step sideways (`depth == n_nodes`) or step
down the tree, initializing `stack.probs[depth]` on first visit and
storing the state for the next branch. -/
def stepSim {Q V : Type} (P : Params) (C : Collaborators Q V)
    (s : TraversalState Q V) (initial : Option Q) (evs : List TraceEv) :
    TraversalState Q V × List TraceEv :=
  let st := C.getFinalState s.depth s.branch initial
  let evs := evs ++ [.getFinalStateCall s.depth]
  if s.depth = P.n then
    let b := s.branch.getD s.depth 0
    ({ s with
        results := s.results.set s.depth
          ((s.results.getD s.depth []).set b (some (C.measureFinal s.branch st))),
        branch := s.branch.set s.depth ((b + 1) % P.k s.depth) },
     evs ++ [.measureFinalCall s.depth])
  else
    let d := s.depth + 1
    let probs :=
      if (s.probs.getD d none).isNone then
        s.probs.set d (some (List.replicate (P.k d) none))
      else s.probs
    ({ s with depth := d, probs := probs, states := s.states.set d (some st) }, evs)

/-- One iteration of the `while stack.any_is_empty(1)` loop body
(tree_simulate.py, lines 153-227), given that the loop guard held.
`none` models a Python exception aborting `tree_simulate`:

* combining at `depth ≤ 1` raises in the source — at depth 0
  `combine_measurements` iterates `stack.probs[0]`, which is never
  initialized, and at depth 1 the step-up then evaluates
  `(branch_current[0] + 1) % n_kraus[0]` with `n_kraus[0] = None`;
* `branch_state` on an unset `stack.states[depth]`, and
  `stack.probs[depth][...] = prob` on an unset probability row, raise
  `TypeError`.

All three are proved unreachable from the initial state (`Inv`). -/
noncomputable def step {Q V : Type} (P : Params) (C : Collaborators Q V)
    (s : TraversalState Q V) : Option (TraversalState Q V × List TraceEv) :=
  if isFull (s.results.getD s.depth []) then
    if s.depth ≤ 1 then none
    else
      let comb := C.combine (s.probs.getD s.depth none) (s.results.getD s.depth [])
      let branch := zeroFrom s.branch s.depth
      let probs := s.probs.set s.depth none
      let results := s.results.set s.depth (List.replicate (P.k s.depth) none)
      let states := s.states.set s.depth none
      let d := s.depth - 1
      let b := branch.getD d 0
      some ({ depth := d,
              branch := branch.set d ((b + 1) % P.k d),
              probs := probs,
              results := results.set d ((results.getD d []).set b (some comb)),
              states := states },
            [.combineCall s.depth])
  else if s.depth = 0 then
    some (stepSim P C s (s.states.getD 0 none) [])
  else
    match s.states.getD s.depth none with
    | none => none
    | some q =>
      let b := s.branch.getD s.depth 0
      let bs := C.branchState q s.depth b
      if bs.2 = 0 then
        some ({ s with
            results := s.results.set s.depth
              ((s.results.getD s.depth []).set b (some (List.replicate P.m none))),
            branch := s.branch.set s.depth ((b + 1) % P.k s.depth) },
          [.branchStateCall s.depth b])
      else
        match s.probs.getD s.depth none with
        | none => none
        | some prow =>
          some (stepSim P C
            { s with probs := s.probs.set s.depth (some (prow.set b (some bs.2))) }
            (some bs.1)
            [.branchStateCall s.depth b])

/-- The state after the initialization block of `tree_simulate`
(`branch_current = zeros(n_nodes + 1)`, `TreeTraversalStack(n_nodes + 1,
n_kraus)`, `depth = 0`). -/
def initState {Q V : Type} (P : Params) : TraversalState Q V :=
  { depth := 0,
    branch := List.replicate (P.n + 1) 0,
    probs := List.replicate (P.n + 1) none,
    results := [[none]] ++ (List.range P.n).map (fun d => List.replicate (P.k (d + 1)) none),
    states := List.replicate (P.n + 1) none }

/-- Iterate the loop body, irrespective of the loop guard (used to state
invariants over every state the traversal can ever reach). -/
noncomputable def runSteps {Q V : Type} (P : Params) (C : Collaborators Q V) :
    ℕ → TraversalState Q V → Option (TraversalState Q V)
  | 0, s => some s
  | j + 1, s =>
    match step P C s with
    | none => none
    | some (s', _) => runSteps P C j s'

/-- The fueled `while stack.any_is_empty(1)` loop followed by the final
`combine_measurements(terminal_measurements, stack, 1)`. `none`: out of
fuel; `some none`: the body raised; `some (some r)`: normal return. -/
noncomputable def loopRun {Q V : Type} (P : Params) (C : Collaborators Q V) :
    ℕ → TraversalState Q V → Option (Option (List (Option V)))
  | 0, _ => none
  | fuel + 1, s =>
    if anyIsEmpty (s.results.getD 1 []) then
      match step P C s with
      | none => some none
      | some (s', _) => loopRun P C fuel s'
    else
      some (some (C.combine (s.probs.getD 1 none) (s.results.getD 1 [])))

theorem zeroFrom_length (l : List ℕ) (d : ℕ) : (zeroFrom l d).length = l.length := by
  induction l generalizing d with
  | nil => rfl
  | cons x t ih =>
    cases d with
    | zero => simp [zeroFrom, ih]
    | succ d' => simp [zeroFrom, ih]

theorem getD_zeroFrom_lt (l : List ℕ) (d i : ℕ) (h : i < d) :
    (zeroFrom l d).getD i 0 = l.getD i 0 := by
  induction l generalizing d i with
  | nil => rfl
  | cons x t ih =>
    cases d with
    | zero => omega
    | succ d' =>
      cases i with
      | zero => rfl
      | succ i' => simpa [zeroFrom] using ih d' i' (by omega)

theorem getD_zeroFrom_ge (l : List ℕ) (d i : ℕ) (hd : d ≤ i) (hi : i < l.length) :
    (zeroFrom l d).getD i 0 = 0 := by
  induction l generalizing d i with
  | nil => simp at hi
  | cons x t ih =>
    cases i with
    | zero =>
      cases d with
      | zero => rfl
      | succ d' => omega
    | succ i' =>
      cases d with
      | zero => simpa [zeroFrom] using ih 0 i' (by omega) (by simpa using hi)
      | succ d' => simpa [zeroFrom] using ih d' i' (by omega) (by simpa using hi)

theorem stepSim_lengths {Q V : Type} (P : Params) (C : Collaborators Q V)
    (s : TraversalState Q V) (initial : Option Q) (evs : List TraceEv) :
    ((stepSim P C s initial evs).1).states.length = s.states.length ∧
    ((stepSim P C s initial evs).1).branch.length = s.branch.length ∧
    ((stepSim P C s initial evs).1).probs.length = s.probs.length ∧
    ((stepSim P C s initial evs).1).results.length = s.results.length := by
  simp only [stepSim]
  split
  · simp
  · split <;> simp

/-- Every loop iteration preserves the lengths of the four per-depth
arrays: the `TreeTraversalStack` rows are allocated once with `n + 1`
slots and only ever overwritten, never grown. -/
theorem step_lengths {Q V : Type} (P : Params) (C : Collaborators Q V)
    (s s' : TraversalState Q V) (evs : List TraceEv)
    (h : step P C s = some (s', evs)) :
    s'.states.length = s.states.length ∧
    s'.branch.length = s.branch.length ∧
    s'.probs.length = s.probs.length ∧
    s'.results.length = s.results.length := by
  unfold step at h
  split at h
  · split at h
    · exact absurd h (by simp)
    · rw [Option.some_inj] at h
      have h1 := congrArg Prod.fst h
      simp only at h1
      subst h1
      simp [List.length_set, zeroFrom_length]
  · split at h
    · rw [Option.some_inj] at h
      have h1 := congrArg Prod.fst h
      subst h1
      exact stepSim_lengths P C s _ _
    · split at h
      · exact absurd h (by simp)
      · split at h
        · simp only [] at h
          split at h
          · rw [Option.some_inj] at h
            have h1 := congrArg Prod.fst h
            simp only at h1
            subst h1
            simp [List.length_set]
          · exact absurd h (by simp)
        · simp only [] at h
          split at h
          · rw [Option.some_inj] at h
            have h1 := congrArg Prod.fst h
            simp only at h1
            subst h1
            simp [List.length_set]
          · rw [Option.some_inj] at h
            have h1 := congrArg Prod.fst h
            subst h1
            refine ⟨?_, ?_, ?_, ?_⟩ <;>
              simp [stepSim_lengths, List.length_set,
                (stepSim_lengths P C _ _ _).1, (stepSim_lengths P C _ _ _).2.1,
                (stepSim_lengths P C _ _ _).2.2.1, (stepSim_lengths P C _ _ _).2.2.2]

/-- Claim C2: a branch at depth `d ≥ 1` whose `branch_state` call reports
probability `0.0` is pruned in place: the loop body stores the
`(None,) * len(terminal_measurements)` tuple in the branch's result slot,
does not touch the probability rows (the slot stays unset), advances
`branch_current[depth]` to the next sibling, and emits no
`get_final_state` call — segment simulation is never invoked for the
pruned branch. -/
theorem pruned_branch_skips_simulation {Q V : Type} (P : Params)
    (C : Collaborators Q V) (s : TraversalState Q V) (q : Q)
    (hfull : isFull (s.results.getD s.depth []) = false)
    (hd : 1 ≤ s.depth)
    (hq : s.states.getD s.depth none = some q)
    (hzero : (C.branchState q s.depth (s.branch.getD s.depth 0)).2 = 0)
    (hlen : s.depth < s.results.length)
    (hb : s.branch.getD s.depth 0 < (s.results.getD s.depth []).length) :
    ∃ s' evs, step P C s = some (s', evs) ∧
      (∀ d, TraceEv.getFinalStateCall d ∉ evs) ∧
      s'.probs = s.probs ∧
      s'.states = s.states ∧
      s'.depth = s.depth ∧
      (s'.results.getD s.depth []).getD (s.branch.getD s.depth 0) none
        = some (List.replicate P.m none) ∧
      s'.branch = s.branch.set s.depth ((s.branch.getD s.depth 0 + 1) % P.k s.depth) := by
  have h0 : ¬ s.depth = 0 := by omega
  refine ⟨{ s with
      results := s.results.set s.depth
        ((s.results.getD s.depth []).set (s.branch.getD s.depth 0)
          (some (List.replicate P.m none))),
      branch := s.branch.set s.depth
        ((s.branch.getD s.depth 0 + 1) % P.k s.depth) },
    [TraceEv.branchStateCall s.depth (s.branch.getD s.depth 0)],
    ?_, ?_, rfl, rfl, rfl, ?_, rfl⟩
  · simp only [step, hfull, Bool.false_eq_true, ite_false, h0, hq, hzero, ite_true]
  · intro d
    simp
  · rw [getD_set_self _ _ _ _ hlen, getD_set_self _ _ _ _ hb]

def witParams : Params := ⟨1, fun _ => 2, 1⟩

def witCollabPrune : Collaborators Unit Unit :=
  ⟨fun _ _ _ => ((), 0), fun _ _ _ => (), fun _ _ => [none], fun _ _ => [none]⟩

def witStatePrune : TraversalState Unit Unit :=
  ⟨1, [0, 0], [none, some [none, none]], [[none], [none, none]], [none, some ()]⟩

theorem pruned_branch_skips_simulation_witness :
    ∃ s' evs, step witParams witCollabPrune witStatePrune = some (s', evs) ∧
      (∀ d, TraceEv.getFinalStateCall d ∉ evs) ∧
      s'.probs = witStatePrune.probs ∧
      s'.states = witStatePrune.states ∧
      s'.depth = witStatePrune.depth ∧
      (s'.results.getD witStatePrune.depth []).getD
          (witStatePrune.branch.getD witStatePrune.depth 0) none
        = some (List.replicate witParams.m none) ∧
      s'.branch = witStatePrune.branch.set witStatePrune.depth
        ((witStatePrune.branch.getD witStatePrune.depth 0 + 1)
          % witParams.k witStatePrune.depth) :=
  pruned_branch_skips_simulation witParams witCollabPrune witStatePrune ()
    rfl (le_refl 1) rfl rfl (by decide) (by decide)

theorem runSteps_states_length {Q V : Type} (P : Params) (C : Collaborators Q V) :
    ∀ (j : ℕ) (s s' : TraversalState Q V), runSteps P C j s = some s' →
      s'.states.length = s.states.length := by
  intro j
  induction j with
  | zero =>
    intro s s' h
    simp only [runSteps, Option.some_inj] at h
    rw [h]
  | succ j ih =>
    intro s s' h
    simp only [runSteps] at h
    cases hs : step P C s with
    | none => rw [hs] at h; exact absurd h (by simp)
    | some p =>
      rw [hs] at h
      have := ih p.1 s' h
      have hl := step_lengths P C s p.1 p.2 (by rw [hs])
      omega

theorem countP_le_length' {α : Type} (p : α → Bool) (l : List α) :
    l.countP p ≤ l.length := by
  induction l with
  | nil => simp
  | cons x t ih =>
    rw [List.countP_cons]
    by_cases h : p x = true <;> simp [h] <;> omega

/-- Claim C3: throughout the traversal the stack keeps one state slot per
depth in a fixed array of `n + 1` slots that is never grown, so at most
`n + 1` state copies are live simultaneously — independently of the
outcome counts `k[d]` and of the number of outcome combinations.  The
quantification is over every state reachable by any number of loop
iterations from the initialized stack. -/
theorem states_array_depth_bounded {Q V : Type} (P : Params)
    (C : Collaborators Q V) (j : ℕ) (s' : TraversalState Q V)
    (h : runSteps P C j (initState P) = some s') :
    s'.states.length = P.n + 1 ∧ filled s'.states ≤ P.n + 1 := by
  have hlen := runSteps_states_length P C j (initState P) s' h
  have hinit : (initState (Q := Q) (V := V) P).states.length = P.n + 1 := by
    simp [initState]
  constructor
  · omega
  · calc filled s'.states ≤ s'.states.length := countP_le_length' _ _
      _ = P.n + 1 := by omega

theorem states_array_depth_bounded_witness :
    ((initState (Q := Unit) (V := Unit) witParams).states.length = witParams.n + 1 ∧
      filled (initState (Q := Unit) (V := Unit) witParams).states ≤ witParams.n + 1) :=
  states_array_depth_bounded witParams witCollabPrune 0
    (initState witParams) rfl

/-! ### Termination of the traversal loop

The loop is shown to terminate by a ranking function.  The key loop
invariant is that every result row is a block of filled slots followed by
a block of unset slots, with `branch_current[d]` pointing at the first
unset slot (modulo wrap-around when a row has just been completed). -/

/-- A `row` consisting of `L` filled slots followed by `kk - L` unset slots. -/
def ShapedRow {α : Type} (row : List (Option α)) (kk L : ℕ) : Prop :=
  ∃ vs : List α, vs.length = L ∧ L ≤ kk ∧
    row = vs.map some ++ List.replicate (kk - L) none

theorem shapedRow_replicate {α : Type} (kk : ℕ) :
    ShapedRow (List.replicate kk (none : Option α)) kk 0 :=
  ⟨[], rfl, Nat.zero_le kk, by simp⟩

theorem shapedRow_length {α : Type} {row : List (Option α)} {kk L : ℕ}
    (h : ShapedRow row kk L) : row.length = kk := by
  obtain ⟨vs, hlen, hle, rfl⟩ := h
  simp [hlen]
  omega

theorem shapedRow_holes {α : Type} {row : List (Option α)} {kk L : ℕ}
    (h : ShapedRow row kk L) : holes row = kk - L := by
  obtain ⟨vs, hlen, hle, rfl⟩ := h
  simp only [holes, List.countP_append]
  have h1 : (vs.map some).countP (fun o => Option.isNone o) = 0 := by
    rw [List.countP_eq_zero]
    intro o ho
    simp only [List.mem_map] at ho
    obtain ⟨v, _, rfl⟩ := ho
    simp
  have h2 : (List.replicate (kk - L) (none : Option α)).countP (fun o => Option.isNone o)
      = kk - L := holes_replicate (kk - L)
  simp only [holes] at h2
  omega

theorem shapedRow_isFull {α : Type} {row : List (Option α)} {kk L : ℕ}
    (h : ShapedRow row kk L) : (isFull row = true ↔ L = kk) := by
  rw [isFull_iff_holes_eq_zero, shapedRow_holes h]
  obtain ⟨vs, hlen, hle, _⟩ := h
  omega

theorem shapedRow_getD_none {α : Type} {row : List (Option α)} {kk L : ℕ}
    (h : ShapedRow row kk L) (hlt : L < kk) : row.getD L none = none := by
  obtain ⟨vs, hlen, hle, rfl⟩ := h
  rw [getD_append_right _ _ _ _ (by simp [hlen])]
  have : kk - L = (kk - L - 1) + 1 := by omega
  rw [this, List.replicate_succ]
  simp [hlen]

theorem shapedRow_set {α : Type} {row : List (Option α)} {kk L : ℕ} (a : α)
    (h : ShapedRow row kk L) (hlt : L < kk) :
    ShapedRow (row.set L (some a)) kk (L + 1) := by
  obtain ⟨vs, hlen, hle, rfl⟩ := h
  refine ⟨vs ++ [a], by simp [hlen], by omega, ?_⟩
  have hsetpos : (vs.map some ++ List.replicate (kk - L) none).set L (some a)
      = vs.map some ++ (List.replicate (kk - L) none).set 0 (some a) := by
    nth_rewrite 2 [show L = (vs.map some).length by simp [hlen]]
    exact set_append_length _ _ _
  rw [hsetpos]
  have hrep : kk - L = (kk - (L + 1)) + 1 := by omega
  rw [hrep, List.replicate_succ]
  simp [List.append_assoc]

/-- The weight of one slot at distance `g` above the leaves: the largest
number of loop iterations that filling the slot can take. -/
def Wgap (P : Params) : ℕ → ℕ → ℕ
  | 0, _ => 1
  | g + 1, d => 2 + P.k (d + 1) * Wgap P g (d + 1)

/-- The weight of one result slot at depth `d`. -/
def W (P : Params) (d : ℕ) : ℕ := Wgap P (P.n - d) d

theorem Wgap_pos (P : Params) (g d : ℕ) : 1 ≤ Wgap P g d := by
  cases g with
  | zero => simp [Wgap]
  | succ g => simp [Wgap]; omega

theorem W_pos (P : Params) (d : ℕ) : 1 ≤ W P d := Wgap_pos P _ d

theorem W_rec (P : Params) (d : ℕ) (hd : d < P.n) :
    W P d = 2 + P.k (d + 1) * W P (d + 1) := by
  unfold W
  have h : P.n - d = (P.n - (d + 1)) + 1 := by omega
  rw [h]
  rfl

/-- The ranking function's main part: unset result slots, weighted by the
work a slot at that depth can cost. -/
def Phi {Q V : Type} (P : Params) (s : TraversalState Q V) : ℕ :=
  ∑ d in Finset.range (P.n + 1), holes (s.results.getD d []) * W P d

/-- The ranking function: `Phi` lexicographically refined by distance to
the leaves (descending is the one step kind that leaves `Phi` alone). -/
def Meas {Q V : Type} (P : Params) (s : TraversalState Q V) : ℕ :=
  Phi P s * (P.n + 1) + (P.n - s.depth)

theorem sum_one_point (m a : ℕ) (f f' : ℕ → ℕ) (ha : a < m)
    (hsame : ∀ i, i ≠ a → f' i = f i) :
    ∑ i in Finset.range m, f' i + f a = ∑ i in Finset.range m, f i + f' a := by
  have hmem : a ∈ Finset.range m := Finset.mem_range.mpr ha
  rw [← Finset.add_sum_erase _ f' hmem, ← Finset.add_sum_erase _ f hmem]
  have : ∑ i in (Finset.range m).erase a, f' i = ∑ i in (Finset.range m).erase a, f i :=
    Finset.sum_congr rfl (fun i hi => hsame i (Finset.ne_of_mem_erase hi))
  omega

theorem sum_two_point (m a b : ℕ) (f f' : ℕ → ℕ) (ha : a < m) (hb : b < m)
    (hab : a ≠ b)
    (hsame : ∀ i, i ≠ a → i ≠ b → f' i = f i) :
    ∑ i in Finset.range m, f' i + f a + f b
      = ∑ i in Finset.range m, f i + f' a + f' b := by
  have hmema : a ∈ Finset.range m := Finset.mem_range.mpr ha
  have hmemb : b ∈ ((Finset.range m).erase a) :=
    Finset.mem_erase.mpr ⟨Ne.symm hab, Finset.mem_range.mpr hb⟩
  rw [← Finset.add_sum_erase _ f' hmema, ← Finset.add_sum_erase _ f hmema,
    ← Finset.add_sum_erase _ f' hmemb, ← Finset.add_sum_erase _ f hmemb]
  have : ∑ i in ((Finset.range m).erase a).erase b, f' i
      = ∑ i in ((Finset.range m).erase a).erase b, f i := by
    refine Finset.sum_congr rfl (fun i hi => ?_)
    have hia := Finset.ne_of_mem_erase (Finset.mem_of_mem_erase hi)
    have hib := Finset.ne_of_mem_erase hi
    exact hsame i hia hib
  omega

/-- The loop invariant maintained from the first descent on. -/
structure Inv {Q V : Type} (P : Params) (s : TraversalState Q V) : Prop where
  depth_pos : 1 ≤ s.depth
  depth_le : s.depth ≤ P.n
  branch_len : s.branch.length = P.n + 1
  probs_len : s.probs.length = P.n + 1
  results_len : s.results.length = P.n + 1
  states_len : s.states.length = P.n + 1
  row0 : s.results.getD 0 [] = [none]
  rows : ∀ d, 1 ≤ d → d ≤ P.n → ∃ L,
    ShapedRow (s.results.getD d []) (P.k d) L ∧ s.branch.getD d 0 = L % P.k d
  shallow_not_full : ∀ d, 1 ≤ d → d < s.depth → isFull (s.results.getD d []) = false
  deep_clean : ∀ d, s.depth < d → d ≤ P.n →
    s.results.getD d [] = List.replicate (P.k d) none
  states_path : ∀ d, 1 ≤ d → d ≤ s.depth → (s.states.getD d none).isSome = true
  probs_path : ∀ d, 1 ≤ d → d ≤ s.depth → (s.probs.getD d none).isSome = true

theorem Phi_fill_slot {Q V : Type} (P : Params) (s s' : TraversalState Q V)
    (D : ℕ) (hDn : D ≤ P.n)
    (hholes : holes (s'.results.getD D []) + 1 = holes (s.results.getD D []))
    (hsame : ∀ d, d ≠ D → s'.results.getD d [] = s.results.getD d []) :
    Phi P s' + W P D = Phi P s := by
  unfold Phi
  have h := sum_one_point (P.n + 1) D
    (fun i => holes (s.results.getD i []) * W P i)
    (fun i => holes (s'.results.getD i []) * W P i)
    (by omega)
    (fun i hi => by simp only []; rw [hsame i hi])
  simp only [] at h
  have hexp : holes (s.results.getD D []) * W P D
      = holes (s'.results.getD D []) * W P D + W P D := by
    rw [← hholes]; ring
  omega

theorem Phi_combine_level {Q V : Type} (P : Params) (s s' : TraversalState Q V)
    (D : ℕ) (hD : 2 ≤ D) (hDn : D ≤ P.n)
    (hfullD : holes (s.results.getD D []) = 0)
    (hnewD : holes (s'.results.getD D []) = P.k D)
    (hparent : holes (s'.results.getD (D - 1) []) + 1
      = holes (s.results.getD (D - 1) []))
    (hsame : ∀ d, d ≠ D → d ≠ D - 1 → s'.results.getD d [] = s.results.getD d []) :
    Phi P s' + W P (D - 1) = Phi P s + P.k D * W P D := by
  unfold Phi
  have h := sum_two_point (P.n + 1) (D - 1) D
    (fun i => holes (s.results.getD i []) * W P i)
    (fun i => holes (s'.results.getD i []) * W P i)
    (by omega) (by omega) (by omega)
    (fun i hi1 hi2 => by simp only []; rw [hsame i hi2 hi1])
  simp only [] at h
  have hexp : holes (s.results.getD (D - 1) []) * W P (D - 1)
      = holes (s'.results.getD (D - 1) []) * W P (D - 1) + W P (D - 1) := by
    rw [← hparent]; ring
  have hD0 : holes (s.results.getD D []) * W P D = 0 := by rw [hfullD]; ring
  have hD1 : holes (s'.results.getD D []) * W P D = P.k D * W P D := by rw [hnewD]
  omega

/-- A slot-filling update of the current depth's result row (shared shape
of the PRUNE and LEAF steps): fill the active slot with `t` and advance
`branch_current[depth]`. -/
def fillSlot {Q V : Type} (P : Params) (s : TraversalState Q V)
    (t : List (Option V)) : TraversalState Q V :=
  { s with
    results := s.results.set s.depth
      ((s.results.getD s.depth []).set (s.branch.getD s.depth 0) (some t)),
    branch := s.branch.set s.depth ((s.branch.getD s.depth 0 + 1) % P.k s.depth) }

theorem fillSlot_depth {Q V : Type} (P : Params) (s : TraversalState Q V)
    (t : List (Option V)) : (fillSlot P s t).depth = s.depth := rfl

theorem fillSlot_results {Q V : Type} (P : Params) (s : TraversalState Q V)
    (t : List (Option V)) : (fillSlot P s t).results
      = s.results.set s.depth
        ((s.results.getD s.depth []).set (s.branch.getD s.depth 0) (some t)) := rfl

theorem fillSlot_branch {Q V : Type} (P : Params) (s : TraversalState Q V)
    (t : List (Option V)) : (fillSlot P s t).branch
      = s.branch.set s.depth ((s.branch.getD s.depth 0 + 1) % P.k s.depth) := rfl

theorem fillSlot_probs {Q V : Type} (P : Params) (s : TraversalState Q V)
    (t : List (Option V)) : (fillSlot P s t).probs = s.probs := rfl

theorem fillSlot_states {Q V : Type} (P : Params) (s : TraversalState Q V)
    (t : List (Option V)) : (fillSlot P s t).states = s.states := rfl

/-- Filling the active slot of the current row with any tuple preserves
the invariant (the slot is the row's first unset one) and decreases the
ranking function. -/
theorem fillSlot_inv_meas {Q V : Type} (P : Params) (s : TraversalState Q V)
    (hInv : Inv P s)
    (hfull : isFull (s.results.getD s.depth []) = false)
    (t : List (Option V)) :
    Inv P (fillSlot P s t) ∧ Meas P (fillSlot P s t) < Meas P s := by
  obtain ⟨L, hsh, hbd⟩ := hInv.rows s.depth hInv.depth_pos hInv.depth_le
  have hLle : L ≤ P.k s.depth := by obtain ⟨vs, _, hle, _⟩ := hsh; exact hle
  have hLlt : L < P.k s.depth := by
    rcases Nat.lt_or_ge L (P.k s.depth) with h | h
    · exact h
    · have he : L = P.k s.depth := by omega
      rw [(shapedRow_isFull hsh).mpr he] at hfull
      simp at hfull
  have hb : s.branch.getD s.depth 0 = L := by rw [hbd, Nat.mod_eq_of_lt hLlt]
  have hrowlen : (s.results.getD s.depth []).length = P.k s.depth := shapedRow_length hsh
  have hdle := hInv.depth_le
  have hdpos := hInv.depth_pos
  have hreslen : s.depth < s.results.length := by rw [hInv.results_len]; omega
  have hbrlen : s.depth < s.branch.length := by rw [hInv.branch_len]; omega
  have hrow' : (fillSlot P s t).results.getD s.depth []
      = (s.results.getD s.depth []).set L (some t) := by
    rw [fillSlot_results, getD_set_self _ _ _ _ hreslen, hb]
  have hrow_ne : ∀ d, d ≠ s.depth →
      (fillSlot P s t).results.getD d [] = s.results.getD d [] := by
    intro d hd
    rw [fillSlot_results, getD_set_ne _ _ _ _ _ (fun he => hd he.symm)]
  have hbr_ne : ∀ d, d ≠ s.depth →
      (fillSlot P s t).branch.getD d 0 = s.branch.getD d 0 := by
    intro d hd
    rw [fillSlot_branch, getD_set_ne _ _ _ _ _ (fun he => hd he.symm)]
  constructor
  · refine ⟨?_, ?_, ?_, ?_, ?_, ?_, ?_, ?_, ?_, ?_, ?_, ?_⟩
    · rw [fillSlot_depth]; exact hInv.depth_pos
    · rw [fillSlot_depth]; exact hInv.depth_le
    · rw [fillSlot_branch]; simp [List.length_set, hInv.branch_len]
    · rw [fillSlot_probs]; exact hInv.probs_len
    · rw [fillSlot_results]; simp [List.length_set, hInv.results_len]
    · rw [fillSlot_states]; exact hInv.states_len
    · rw [hrow_ne 0 (by omega)]; exact hInv.row0
    · intro d hd1 hdn
      by_cases hdD : d = s.depth
      · subst hdD
        refine ⟨L + 1, ?_, ?_⟩
        · rw [hrow']
          exact shapedRow_set _ hsh hLlt
        · rw [fillSlot_branch, getD_set_self _ _ _ _ hbrlen, hb]
      · obtain ⟨L', hsh', hbd'⟩ := hInv.rows d hd1 hdn
        exact ⟨L', by rw [hrow_ne d hdD]; exact hsh', by rw [hbr_ne d hdD]; exact hbd'⟩
    · intro d hd1 hdlt
      rw [fillSlot_depth] at hdlt
      rw [hrow_ne d (by omega)]
      exact hInv.shallow_not_full d hd1 hdlt
    · intro d hdgt hdn
      rw [fillSlot_depth] at hdgt
      rw [hrow_ne d (by omega)]
      exact hInv.deep_clean d hdgt hdn
    · intro d hd1 hdle'
      rw [fillSlot_depth] at hdle'
      rw [fillSlot_states]
      exact hInv.states_path d hd1 hdle'
    · intro d hd1 hdle'
      rw [fillSlot_depth] at hdle'
      rw [fillSlot_probs]
      exact hInv.probs_path d hd1 hdle'
  · have hholes : holes ((s.results.getD s.depth []).set L (some t)) + 1
        = holes (s.results.getD s.depth []) :=
      holes_set_some _ _ _ (by omega) (shapedRow_getD_none hsh hLlt)
    have hphi := Phi_fill_slot P s (fillSlot P s t) s.depth hInv.depth_le
      (by rw [hrow']; exact hholes) hrow_ne
    have hW := W_pos P s.depth
    unfold Meas
    rw [fillSlot_depth]
    have hmul : Phi P s * (P.n + 1)
        = Phi P (fillSlot P s t) * (P.n + 1) + W P s.depth * (P.n + 1) := by
      rw [← hphi]; ring
    have hWp : 1 ≤ W P s.depth * (P.n + 1) := by
      have := Nat.mul_pos (show 0 < W P s.depth by omega) (show 0 < P.n + 1 by omega)
      omega
    omega

/-- PRUNE: at depth ≥ 1, `branch_state` reports probability `0.0`; the
slot is filled with the all-`None` tuple and the branch advances. -/
theorem progress_prune {Q V : Type} (P : Params) (C : Collaborators Q V)
    (s : TraversalState Q V) (hInv : Inv P s) (q : Q)
    (hfull : isFull (s.results.getD s.depth []) = false)
    (hq : s.states.getD s.depth none = some q)
    (hz : (C.branchState q s.depth (s.branch.getD s.depth 0)).2 = 0) :
    ∃ s' evs, step P C s = some (s', evs) ∧ Inv P s' ∧ Meas P s' < Meas P s := by
  have h0 : ¬ s.depth = 0 := by have := hInv.depth_pos; omega
  refine ⟨fillSlot P s (List.replicate P.m none),
    [TraceEv.branchStateCall s.depth (s.branch.getD s.depth 0)], ?_, ?_, ?_⟩
  · simp only [step, hfull, Bool.false_eq_true, ite_false, h0, hq, hz, ite_true]
    rfl
  · exact (fillSlot_inv_meas P s hInv hfull _).1
  · exact (fillSlot_inv_meas P s hInv hfull _).2

/-- The assignment `stack.probs[depth][branch_current[depth]] = prob`: store the branch
probability of the active edge. -/
def setProb {Q V : Type} (s : TraversalState Q V) (prow : List (Option ℝ))
    (p : ℝ) : TraversalState Q V :=
  { s with
    probs := s.probs.set s.depth (some (prow.set (s.branch.getD s.depth 0) (some p))) }

theorem setProb_inv {Q V : Type} (P : Params) (s : TraversalState Q V)
    (hInv : Inv P s) (prow : List (Option ℝ)) (p : ℝ) :
    Inv P (setProb s prow p) := by
  have hdle := hInv.depth_le
  have hplen : s.depth < s.probs.length := by rw [hInv.probs_len]; omega
  refine ⟨hInv.depth_pos, hInv.depth_le, hInv.branch_len, ?_, hInv.results_len,
    hInv.states_len, hInv.row0, hInv.rows, hInv.shallow_not_full, hInv.deep_clean,
    hInv.states_path, ?_⟩
  · show (s.probs.set s.depth
      (some (prow.set (s.branch.getD s.depth 0) (some p)))).length = P.n + 1
    simp [List.length_set, hInv.probs_len]
  · intro d hd1 hdle'
    show ((s.probs.set s.depth
      (some (prow.set (s.branch.getD s.depth 0) (some p)))).getD d none).isSome = true
    by_cases hdD : d = s.depth
    · subst hdD
      rw [getD_set_self _ _ _ _ hplen]
      rfl
    · rw [getD_set_ne _ _ _ _ _ (fun he => hdD he.symm)]
      exact hInv.probs_path d hd1 hdle'

theorem setProb_meas {Q V : Type} (P : Params) (s : TraversalState Q V)
    (prow : List (Option ℝ)) (p : ℝ) :
    Meas P (setProb s prow p) = Meas P s := rfl

/-- LEAF: at depth `n` with nonzero branch probability, the segment is
simulated, the terminal measurements are evaluated and stored in the
active slot, and the branch advances. -/
theorem progress_leaf {Q V : Type} (P : Params) (C : Collaborators Q V)
    (s : TraversalState Q V) (hInv : Inv P s) (q : Q) (prow : List (Option ℝ))
    (hfull : isFull (s.results.getD s.depth []) = false)
    (hq : s.states.getD s.depth none = some q)
    (hz : ¬ (C.branchState q s.depth (s.branch.getD s.depth 0)).2 = 0)
    (hprow : s.probs.getD s.depth none = some prow)
    (hDn : s.depth = P.n) :
    ∃ s' evs, step P C s = some (s', evs) ∧ Inv P s' ∧ Meas P s' < Meas P s := by
  have h0 : ¬ s.depth = 0 := by have := hInv.depth_pos; omega
  set s₁ := setProb s prow (C.branchState q s.depth (s.branch.getD s.depth 0)).2
    with hs₁
  have hInv₁ : Inv P s₁ := setProb_inv P s hInv _ _
  have hfull₁ : isFull (s₁.results.getD s₁.depth []) = false := hfull
  refine ⟨fillSlot P s₁
      (C.measureFinal s₁.branch
        (C.getFinalState s₁.depth s₁.branch
          (some (C.branchState q s.depth (s.branch.getD s.depth 0)).1))),
    ([TraceEv.branchStateCall s.depth (s.branch.getD s.depth 0)]
      ++ [TraceEv.getFinalStateCall s.depth]) ++ [TraceEv.measureFinalCall s.depth],
    ?_, ?_, ?_⟩
  · simp only [step, hfull, Bool.false_eq_true, ite_false, h0, hq, hprow]
    rw [if_neg hz]
    simp only [stepSim]
    rw [if_pos hDn]
    rfl
  · exact (fillSlot_inv_meas P s₁ hInv₁ hfull₁ _).1
  · calc Meas P (fillSlot P s₁ _) < Meas P s₁ :=
          (fillSlot_inv_meas P s₁ hInv₁ hfull₁ _).2
      _ = Meas P s := setProb_meas P s _ _

/-- The DESCEND update: step down one level, initializing the
probability row on first visit and storing the just-simulated state. -/
def descendState {Q V : Type} (P : Params) (s₁ : TraversalState Q V) (st : Q) :
    TraversalState Q V :=
  { s₁ with
    depth := s₁.depth + 1,
    probs :=
      if (s₁.probs.getD (s₁.depth + 1) none).isNone then
        s₁.probs.set (s₁.depth + 1) (some (List.replicate (P.k (s₁.depth + 1)) none))
      else s₁.probs,
    states := s₁.states.set (s₁.depth + 1) (some st) }

theorem descendState_inv_meas {Q V : Type} (P : Params) (s₁ : TraversalState Q V)
    (hInv : Inv P s₁)
    (hfull : isFull (s₁.results.getD s₁.depth []) = false)
    (hDn : ¬ s₁.depth = P.n) (st : Q) :
    Inv P (descendState P s₁ st) ∧ Meas P (descendState P s₁ st) < Meas P s₁ := by
  have hdle := hInv.depth_le
  have hdpos := hInv.depth_pos
  have hdlt : s₁.depth < P.n := by omega
  have hslen : s₁.depth + 1 < s₁.states.length := by rw [hInv.states_len]; omega
  have hplen : s₁.depth + 1 < s₁.probs.length := by rw [hInv.probs_len]; omega
  constructor
  · refine ⟨?_, ?_, ?_, ?_, ?_, ?_, ?_, ?_, ?_, ?_, ?_, ?_⟩
    · show 1 ≤ s₁.depth + 1
      omega
    · show s₁.depth + 1 ≤ P.n
      omega
    · exact hInv.branch_len
    · show (if (s₁.probs.getD (s₁.depth + 1) none).isNone then
          s₁.probs.set (s₁.depth + 1) (some (List.replicate (P.k (s₁.depth + 1)) none))
        else s₁.probs).length = P.n + 1
      split <;> simp [List.length_set, hInv.probs_len]
    · exact hInv.results_len
    · show (s₁.states.set (s₁.depth + 1) (some st)).length = P.n + 1
      simp [List.length_set, hInv.states_len]
    · exact hInv.row0
    · exact hInv.rows
    · intro d hd1 hdlt'
      show isFull (s₁.results.getD d []) = false
      have hdlt'' : d < s₁.depth + 1 := hdlt'
      by_cases hdD : d = s₁.depth
      · subst hdD; exact hfull
      · exact hInv.shallow_not_full d hd1 (by omega)
    · intro d hdgt hdn
      show s₁.results.getD d [] = List.replicate (P.k d) none
      have hdgt' : s₁.depth + 1 < d := hdgt
      exact hInv.deep_clean d (by omega) hdn
    · intro d hd1 hdle'
      show ((s₁.states.set (s₁.depth + 1) (some st)).getD d none).isSome = true
      have hdle'' : d ≤ s₁.depth + 1 := hdle'
      by_cases hdD : d = s₁.depth + 1
      · subst hdD
        rw [getD_set_self _ _ _ _ hslen]
        rfl
      · rw [getD_set_ne _ _ _ _ _ (fun he => hdD he.symm)]
        exact hInv.states_path d hd1 (by omega)
    · intro d hd1 hdle'
      show ((if (s₁.probs.getD (s₁.depth + 1) none).isNone then
          s₁.probs.set (s₁.depth + 1) (some (List.replicate (P.k (s₁.depth + 1)) none))
        else s₁.probs).getD d none).isSome = true
      have hdle'' : d ≤ s₁.depth + 1 := hdle'
      by_cases hdD : d = s₁.depth + 1
      · subst hdD
        cases hc : s₁.probs.getD (s₁.depth + 1) none with
        | none =>
          simp only [hc, Option.isNone_none, ite_true]
          rw [getD_set_self _ _ _ _ hplen]
          rfl
        | some prow =>
          simp only [Option.isNone_some, Bool.false_eq_true, ite_false]
          rw [hc]
          rfl
      · have hrw : (if (s₁.probs.getD (s₁.depth + 1) none).isNone then
              s₁.probs.set (s₁.depth + 1) (some (List.replicate (P.k (s₁.depth + 1)) none))
            else s₁.probs).getD d none
            = s₁.probs.getD d none := by
          split
          · rw [getD_set_ne _ _ _ _ _ (fun he => hdD he.symm)]
          · rfl
        rw [hrw]
        exact hInv.probs_path d hd1 (by omega)
  · show Phi P (descendState P s₁ st) * (P.n + 1) + (P.n - (s₁.depth + 1))
      < Phi P s₁ * (P.n + 1) + (P.n - s₁.depth)
    have hphi : Phi P (descendState P s₁ st) = Phi P s₁ := rfl
    rw [hphi]
    omega

/-- DESCEND: at depth < n with nonzero branch probability, the segment is
simulated and the traversal steps down one level. -/
theorem progress_descend {Q V : Type} (P : Params) (C : Collaborators Q V)
    (s : TraversalState Q V) (hInv : Inv P s) (q : Q) (prow : List (Option ℝ))
    (hfull : isFull (s.results.getD s.depth []) = false)
    (hq : s.states.getD s.depth none = some q)
    (hz : ¬ (C.branchState q s.depth (s.branch.getD s.depth 0)).2 = 0)
    (hprow : s.probs.getD s.depth none = some prow)
    (hDn : ¬ s.depth = P.n) :
    ∃ s' evs, step P C s = some (s', evs) ∧ Inv P s' ∧ Meas P s' < Meas P s := by
  have h0 : ¬ s.depth = 0 := by have := hInv.depth_pos; omega
  set s₁ := setProb s prow (C.branchState q s.depth (s.branch.getD s.depth 0)).2
    with hs₁
  have hInv₁ : Inv P s₁ := setProb_inv P s hInv _ _
  have hfull₁ : isFull (s₁.results.getD s₁.depth []) = false := hfull
  have hDn₁ : ¬ s₁.depth = P.n := hDn
  refine ⟨descendState P s₁
      (C.getFinalState s.depth s.branch
        (some (C.branchState q s.depth (s.branch.getD s.depth 0)).1)),
    [TraceEv.branchStateCall s.depth (s.branch.getD s.depth 0)]
      ++ [TraceEv.getFinalStateCall s.depth],
    ?_, ?_, ?_⟩
  · simp only [step, hfull, Bool.false_eq_true, ite_false, h0, hq, hprow]
    rw [if_neg hz]
    simp only [stepSim]
    rw [if_neg hDn]
    rfl
  · exact (descendState_inv_meas P s₁ hInv₁ hfull₁ hDn₁ _).1
  · calc Meas P (descendState P s₁ _) < Meas P s₁ :=
          (descendState_inv_meas P s₁ hInv₁ hfull₁ hDn₁ _).2
      _ = Meas P s := setProb_meas P s _ _

/-- The COMBINE-AND-STEP-UP update: combine the completed level's
results, reset the level (`stack.prune`), zero `branch_current[depth:]`,
store the combined result in the parent's active slot and advance the
parent's branch. -/
def combineState {Q V : Type} (P : Params) (C : Collaborators Q V)
    (s : TraversalState Q V) : TraversalState Q V :=
  { depth := s.depth - 1,
    branch := (zeroFrom s.branch s.depth).set (s.depth - 1)
      (((zeroFrom s.branch s.depth).getD (s.depth - 1) 0 + 1) % P.k (s.depth - 1)),
    probs := s.probs.set s.depth none,
    results := (s.results.set s.depth (List.replicate (P.k s.depth) none)).set
      (s.depth - 1)
      (((s.results.set s.depth (List.replicate (P.k s.depth) none)).getD
          (s.depth - 1) []).set
        ((zeroFrom s.branch s.depth).getD (s.depth - 1) 0)
        (some (C.combine (s.probs.getD s.depth none) (s.results.getD s.depth [])))),
    states := s.states.set s.depth none }

/-- COMBINE: the current level's result row is full (and the loop guard
held, so the level is at depth ≥ 2); fold it into the parent slot. -/
theorem progress_combine {Q V : Type} (P : Params) (C : Collaborators Q V)
    (s : TraversalState Q V) (hInv : Inv P s)
    (hfull : isFull (s.results.getD s.depth []) = true)
    (hguard : anyIsEmpty (s.results.getD 1 []) = true) :
    ∃ s' evs, step P C s = some (s', evs) ∧ Inv P s' ∧ Meas P s' < Meas P s := by
  have hdpos := hInv.depth_pos
  have hdle := hInv.depth_le
  have hd2 : 2 ≤ s.depth := by
    rcases Nat.lt_or_ge s.depth 2 with h | h
    · have hd1 : s.depth = 1 := by omega
      rw [hd1] at hfull
      exact absurd hfull (by
        have := (anyIsEmpty_iff_not_isFull (s.results.getD 1 [])).mp hguard
        simpa using this)
    · exact h
  obtain ⟨Lp, hshp, hbdp⟩ := hInv.rows (s.depth - 1) (by omega) (by omega)
  have hnotfullp : isFull (s.results.getD (s.depth - 1) []) = false :=
    hInv.shallow_not_full (s.depth - 1) (by omega) (by omega)
  have hLple : Lp ≤ P.k (s.depth - 1) := by obtain ⟨vs, _, hle, _⟩ := hshp; exact hle
  have hLplt : Lp < P.k (s.depth - 1) := by
    rcases Nat.lt_or_ge Lp (P.k (s.depth - 1)) with h | h
    · exact h
    · have he : Lp = P.k (s.depth - 1) := by omega
      rw [(shapedRow_isFull hshp).mpr he] at hnotfullp
      simp at hnotfullp
  have hbp : s.branch.getD (s.depth - 1) 0 = Lp := by
    rw [hbdp, Nat.mod_eq_of_lt hLplt]
  have hbrlen : s.depth < s.branch.length := by rw [hInv.branch_len]; omega
  have hbrlen' : s.depth - 1 < (zeroFrom s.branch s.depth).length := by
    rw [zeroFrom_length, hInv.branch_len]; omega
  have hreslen : s.depth < s.results.length := by rw [hInv.results_len]; omega
  have hreslen' : s.depth - 1 <
      (s.results.set s.depth (List.replicate (P.k s.depth) none)).length := by
    rw [List.length_set, hInv.results_len]; omega
  have hzb : (zeroFrom s.branch s.depth).getD (s.depth - 1) 0 = Lp := by
    rw [getD_zeroFrom_lt _ _ _ (by omega), hbp]
  have hrowmid : (s.results.set s.depth
      (List.replicate (P.k s.depth) none)).getD (s.depth - 1) []
      = s.results.getD (s.depth - 1) [] :=
    getD_set_ne _ _ _ _ _ (by omega)
  have hrowlen_p : (s.results.getD (s.depth - 1) []).length = P.k (s.depth - 1) :=
    shapedRow_length hshp
  -- the combined result value, for brevity
  set comb := C.combine (s.probs.getD s.depth none) (s.results.getD s.depth [])
    with hcomb
  -- the new parent row and the new level row
  have hrow_parent : (combineState P C s).results.getD (s.depth - 1) []
      = (s.results.getD (s.depth - 1) []).set Lp (some comb) := by
    show ((s.results.set s.depth (List.replicate (P.k s.depth) none)).set
      (s.depth - 1) _).getD (s.depth - 1) [] = _
    rw [getD_set_self _ _ _ _ hreslen', hrowmid, hzb]
  have hrow_level : (combineState P C s).results.getD s.depth []
      = List.replicate (P.k s.depth) none := by
    show ((s.results.set s.depth (List.replicate (P.k s.depth) none)).set
      (s.depth - 1) _).getD s.depth [] = _
    rw [getD_set_ne _ _ _ _ _ (by omega), getD_set_self _ _ _ _ hreslen]
  have hrow_other : ∀ x, x ≠ s.depth - 1 → x ≠ s.depth →
      (combineState P C s).results.getD x [] = s.results.getD x [] := by
    intro x hx1 hx2
    show ((s.results.set s.depth (List.replicate (P.k s.depth) none)).set
      (s.depth - 1) _).getD x [] = _
    rw [getD_set_ne _ _ _ _ _ (fun he => hx1 he.symm),
      getD_set_ne _ _ _ _ _ (fun he => hx2 he.symm)]
  have hbr_parent : (combineState P C s).branch.getD (s.depth - 1) 0
      = (Lp + 1) % P.k (s.depth - 1) := by
    show ((zeroFrom s.branch s.depth).set (s.depth - 1) _).getD (s.depth - 1) 0 = _
    rw [getD_set_self _ _ _ _ hbrlen', hzb]
  have hbr_low : ∀ x, x < s.depth - 1 →
      (combineState P C s).branch.getD x 0 = s.branch.getD x 0 := by
    intro x hx
    show ((zeroFrom s.branch s.depth).set (s.depth - 1) _).getD x 0 = _
    rw [getD_set_ne _ _ _ _ _ (by omega), getD_zeroFrom_lt _ _ _ (by omega)]
  have hbr_high : ∀ x, s.depth ≤ x → x ≤ P.n →
      (combineState P C s).branch.getD x 0 = 0 := by
    intro x hx hxn
    show ((zeroFrom s.branch s.depth).set (s.depth - 1) _).getD x 0 = _
    rw [getD_set_ne _ _ _ _ _ (by omega),
      getD_zeroFrom_ge _ _ _ hx (by rw [hInv.branch_len]; omega)]
  refine ⟨combineState P C s, [TraceEv.combineCall s.depth], ?_, ?_, ?_⟩
  · simp only [step, hfull, ite_true]
    rw [if_neg (show ¬ s.depth ≤ 1 by omega)]
    rfl
  · refine ⟨?_, ?_, ?_, ?_, ?_, ?_, ?_, ?_, ?_, ?_, ?_, ?_⟩
    · show 1 ≤ s.depth - 1
      omega
    · show s.depth - 1 ≤ P.n
      omega
    · show ((zeroFrom s.branch s.depth).set (s.depth - 1) _).length = P.n + 1
      simp [List.length_set, zeroFrom_length, hInv.branch_len]
    · show (s.probs.set s.depth none).length = P.n + 1
      simp [List.length_set, hInv.probs_len]
    · show ((s.results.set s.depth (List.replicate (P.k s.depth) none)).set
        (s.depth - 1) _).length = P.n + 1
      simp [List.length_set, hInv.results_len]
    · show (s.states.set s.depth none).length = P.n + 1
      simp [List.length_set, hInv.states_len]
    · rw [hrow_other 0 (by omega) (by omega)]
      exact hInv.row0
    · intro x hx1 hxn
      by_cases hxp : x = s.depth - 1
      · subst hxp
        refine ⟨Lp + 1, ?_, ?_⟩
        · rw [hrow_parent]
          exact shapedRow_set _ hshp hLplt
        · rw [hbr_parent]
      · by_cases hxD : x = s.depth
        · subst hxD
          refine ⟨0, ?_, ?_⟩
          · rw [hrow_level]
            exact shapedRow_replicate (P.k s.depth)
          · rw [hbr_high s.depth (le_refl _) hdle, Nat.zero_mod]
        · rcases Nat.lt_or_ge x s.depth with hxlt | hxge
          · have hxlt' : x < s.depth - 1 := by omega
            obtain ⟨L', hsh', hbd'⟩ := hInv.rows x hx1 hxn
            exact ⟨L', by rw [hrow_other x hxp hxD]; exact hsh',
              by rw [hbr_low x hxlt']; exact hbd'⟩
          · have hxgt : s.depth < x := by omega
            refine ⟨0, ?_, ?_⟩
            · rw [hrow_other x hxp hxD]
              rw [hInv.deep_clean x hxgt hxn]
              exact shapedRow_replicate (P.k x)
            · rw [hbr_high x (by omega) hxn, Nat.zero_mod]
    · intro x hx1 hxlt
      have hxlt' : x < s.depth - 1 := hxlt
      rw [hrow_other x (by omega) (by omega)]
      exact hInv.shallow_not_full x hx1 (by omega)
    · intro x hxgt hxn
      have hxgt' : s.depth - 1 < x := hxgt
      by_cases hxD : x = s.depth
      · subst hxD
        rw [hrow_level]
      · rw [hrow_other x (by omega) hxD]
        exact hInv.deep_clean x (by omega) hxn
    · intro x hx1 hxle
      have hxle' : x ≤ s.depth - 1 := hxle
      show ((s.states.set s.depth none).getD x none).isSome = true
      rw [getD_set_ne _ _ _ _ _ (by omega)]
      exact hInv.states_path x hx1 (by omega)
    · intro x hx1 hxle
      have hxle' : x ≤ s.depth - 1 := hxle
      show ((s.probs.set s.depth none).getD x none).isSome = true
      rw [getD_set_ne _ _ _ _ _ (by omega)]
      exact hInv.probs_path x hx1 (by omega)
  · have hfullholes : holes (s.results.getD s.depth []) = 0 :=
      (isFull_iff_holes_eq_zero _).mp hfull
    have hparent : holes ((combineState P C s).results.getD (s.depth - 1) []) + 1
        = holes (s.results.getD (s.depth - 1) []) := by
      rw [hrow_parent]
      exact holes_set_some _ _ _ (by omega) (shapedRow_getD_none hshp hLplt)
    have hphi := Phi_combine_level P s (combineState P C s) s.depth hd2 hdle
      hfullholes (by rw [hrow_level]; exact holes_replicate _) hparent
      (fun x hx1 hx2 => hrow_other x hx2 hx1)
    have hWrec : W P (s.depth - 1) = 2 + P.k s.depth * W P s.depth := by
      have h := W_rec P (s.depth - 1) (by omega)
      rw [show s.depth - 1 + 1 = s.depth by omega] at h
      exact h
    show Phi P (combineState P C s) * (P.n + 1) + (P.n - (s.depth - 1))
      < Phi P s * (P.n + 1) + (P.n - s.depth)
    have hphis : Phi P s = Phi P (combineState P C s) + 2 := by omega
    rw [hphis]
    have hexpand : (Phi P (combineState P C s) + 2) * (P.n + 1)
        = Phi P (combineState P C s) * (P.n + 1) + 2 * (P.n + 1) := by ring
    rw [hexpand]
    omega

/-- Under the invariant, every guarded loop iteration succeeds, preserves
the invariant and strictly decreases the ranking function. -/
theorem step_progress {Q V : Type} (P : Params) (C : Collaborators Q V)
    (s : TraversalState Q V) (hInv : Inv P s)
    (hguard : anyIsEmpty (s.results.getD 1 []) = true) :
    ∃ s' evs, step P C s = some (s', evs) ∧ Inv P s' ∧ Meas P s' < Meas P s := by
  cases hfull : isFull (s.results.getD s.depth []) with
  | true => exact progress_combine P C s hInv hfull hguard
  | false =>
    have hq := hInv.states_path s.depth hInv.depth_pos (le_refl _)
    cases hqo : s.states.getD s.depth none with
    | none => rw [hqo] at hq; simp at hq
    | some q =>
      by_cases hz : (C.branchState q s.depth (s.branch.getD s.depth 0)).2 = 0
      · exact progress_prune P C s hInv q hfull hqo hz
      · have hp := hInv.probs_path s.depth hInv.depth_pos (le_refl _)
        cases hpo : s.probs.getD s.depth none with
        | none => rw [hpo] at hp; simp at hp
        | some prow =>
          by_cases hDn : s.depth = P.n
          · exact progress_leaf P C s hInv q prow hfull hqo hz hpo hDn
          · exact progress_descend P C s hInv q prow hfull hqo hz hpo hDn

theorem loopRun_succ_exit {Q V : Type} (P : Params) (C : Collaborators Q V)
    (fuel : ℕ) (s : TraversalState Q V)
    (hg : anyIsEmpty (s.results.getD 1 []) = false) :
    loopRun P C (fuel + 1) s
      = some (some (C.combine (s.probs.getD 1 none) (s.results.getD 1 []))) := by
  show (if anyIsEmpty (s.results.getD 1 []) = true then
      match step P C s with
      | none => some none
      | some (s', _) => loopRun P C fuel s'
    else some (some (C.combine (s.probs.getD 1 none) (s.results.getD 1 [])))) = _
  rw [if_neg (by rw [hg]; simp)]

theorem loopRun_succ_step {Q V : Type} (P : Params) (C : Collaborators Q V)
    (fuel : ℕ) (s s' : TraversalState Q V) (evs : List TraceEv)
    (hg : anyIsEmpty (s.results.getD 1 []) = true)
    (hstep : step P C s = some (s', evs)) :
    loopRun P C (fuel + 1) s = loopRun P C fuel s' := by
  show (if anyIsEmpty (s.results.getD 1 []) = true then
      match step P C s with
      | none => some none
      | some (s', _) => loopRun P C fuel s'
    else some (some (C.combine (s.probs.getD 1 none) (s.results.getD 1 [])))) = _
  rw [if_pos hg, hstep]

/-- From any invariant state, the guarded loop reaches its normal exit
with some fuel (strong induction on the ranking function). -/
theorem loopRun_of_inv {Q V : Type} (P : Params) (C : Collaborators Q V) :
    ∀ (N : ℕ) (s : TraversalState Q V), Meas P s ≤ N → Inv P s →
      ∃ fuel r, loopRun P C fuel s = some (some r) := by
  intro N
  induction N with
  | zero =>
    intro s hM hInv
    cases hg : anyIsEmpty (s.results.getD 1 []) with
    | false =>
      exact ⟨1, C.combine (s.probs.getD 1 none) (s.results.getD 1 []),
        loopRun_succ_exit P C 0 s hg⟩
    | true =>
      obtain ⟨s', evs, hstep, hInv', hM'⟩ := step_progress P C s hInv hg
      omega
  | succ N ih =>
    intro s hM hInv
    cases hg : anyIsEmpty (s.results.getD 1 []) with
    | false =>
      exact ⟨1, C.combine (s.probs.getD 1 none) (s.results.getD 1 []),
        loopRun_succ_exit P C 0 s hg⟩
    | true =>
      obtain ⟨s', evs, hstep, hInv', hM'⟩ := step_progress P C s hInv hg
      obtain ⟨fuel, r, hr⟩ := ih s' (by omega) hInv'
      refine ⟨fuel + 1, r, ?_⟩
      rw [loopRun_succ_step P C fuel s s' evs hg hstep]
      exact hr

theorem getD_replicate' {α : Type} (m i : ℕ) (a d : α) (h : i < m) :
    (List.replicate m a).getD i d = a := by
  induction m generalizing i with
  | zero => omega
  | succ m ih =>
    cases i with
    | zero => rfl
    | succ j =>
      rw [List.replicate_succ]
      simpa using ih j (by omega)

theorem init_row {Q V : Type} (P : Params) (d : ℕ) (hd1 : 1 ≤ d) (hdn : d ≤ P.n) :
    (initState (Q := Q) (V := V) P).results.getD d []
      = List.replicate (P.k d) none := by
  show ([[none]]
    ++ (List.range P.n).map (fun d => List.replicate (P.k (d + 1)) none)).getD d [] = _
  rw [getD_append_right _ _ _ _ (by simp; omega)]
  simp only [List.length_singleton]
  rw [List.getD_eq_getElem?_getD, List.getElem?_map, List.getElem?_range (by omega)]
  simp only [Option.map_some', Option.getD_some]
  rw [show d - 1 + 1 = d by omega]

/-- The state after the very first loop iteration: simulate segment 0
from the freshly created initial state and descend to depth 1. -/
def initDescended {Q V : Type} (P : Params) (C : Collaborators Q V) :
    TraversalState Q V :=
  { depth := 1,
    branch := List.replicate (P.n + 1) 0,
    probs := (List.replicate (P.n + 1) (none : Option (List (Option ℝ)))).set 1
      (some (List.replicate (P.k 1) none)),
    results := (initState (Q := Q) (V := V) P).results,
    states := (List.replicate (P.n + 1) (none : Option Q)).set 1
      (some (C.getFinalState 0 (List.replicate (P.n + 1) 0) none)) }

theorem init_step {Q V : Type} (P : Params) (C : Collaborators Q V)
    (hn : 1 ≤ P.n) :
    step P C (initState P) = some (initDescended P C, [TraceEv.getFinalStateCall 0]) := by
  have hfull : isFull ((initState (Q := Q) (V := V) P).results.getD
      (initState (Q := Q) (V := V) P).depth []) = false := rfl
  simp only [step, hfull, Bool.false_eq_true, ite_false]
  rw [if_pos (show (initState (Q := Q) (V := V) P).depth = 0 from rfl)]
  simp only [stepSim]
  rw [if_neg (show ¬ (initState (Q := Q) (V := V) P).depth = P.n by
    show ¬ 0 = P.n
    omega)]
  have hp1 : (initState (Q := Q) (V := V) P).probs.getD
      ((initState (Q := Q) (V := V) P).depth + 1) none = none :=
    getD_replicate' (P.n + 1) 1 none none (by omega)
  rw [if_pos (by rw [hp1]; rfl)]
  rfl

theorem init_step_inv {Q V : Type} (P : Params) (C : Collaborators Q V)
    (hn : 1 ≤ P.n) : Inv P (initDescended (Q := Q) (V := V) P C) := by
  have h1len : (1 : ℕ) < P.n + 1 := by omega
  refine ⟨le_refl 1, hn, ?_, ?_, ?_, ?_, rfl, ?_, ?_, ?_, ?_, ?_⟩
  · simp [initDescended]
  · simp [initDescended, List.length_set]
  · simp [initDescended, initState]
  · simp [initDescended, List.length_set]
  · intro d hd1 hdn
    refine ⟨0, ?_, ?_⟩
    · show ShapedRow ((initState (Q := Q) (V := V) P).results.getD d []) (P.k d) 0
      rw [init_row P d hd1 hdn]
      exact shapedRow_replicate (P.k d)
    · show (List.replicate (P.n + 1) 0).getD d 0 = 0 % P.k d
      rw [getD_replicate' _ _ _ _ (by omega), Nat.zero_mod]
  · intro d hd1 hdlt
    have : d < 1 := hdlt
    omega
  · intro d hdgt hdn
    have hd1 : (1 : ℕ) < d := hdgt
    exact init_row (Q := Q) (V := V) P d (by omega) hdn
  · intro d hd1 hdle
    have hdle' : d ≤ 1 := hdle
    have hd : d = 1 := by omega
    subst hd
    show (((List.replicate (P.n + 1) (none : Option Q)).set 1 _).getD 1 none).isSome = true
    rw [getD_set_self _ _ _ _ (by simp [List.length_replicate]; omega)]
    rfl
  · intro d hd1 hdle
    have hdle' : d ≤ 1 := hdle
    have hd : d = 1 := by omega
    subst hd
    show (((List.replicate (P.n + 1) (none : Option (List (Option ℝ)))).set 1
      _).getD 1 none).isSome = true
    rw [getD_set_self _ _ _ _ (by simp [List.length_replicate]; omega)]
    rfl

/-- Claim C6: for every circuit with `n ≥ 1` branch nodes, each with a
finite outcome count `k[d] ≥ 1`, and for every behaviour of the
collaborators, the `while stack.any_is_empty(1)` loop of `tree_simulate`
exits after finitely many iterations, reaching the final
`combine_measurements(terminal_measurements, stack, 1)` normally. -/
theorem tree_traversal_loop_terminates {Q V : Type} (P : Params)
    (C : Collaborators Q V) (hn : 1 ≤ P.n)
    (hk : ∀ d, 1 ≤ d → d ≤ P.n → 1 ≤ P.k d) :
    ∃ fuel r, loopRun P C fuel (initState P) = some (some r) := by
  have hstep := init_step P C hn (Q := Q) (V := V)
  have hInv₁ := init_step_inv P C hn (Q := Q) (V := V)
  obtain ⟨fuel, r, hr⟩ := loopRun_of_inv P C (Meas P (initDescended P C))
    (initDescended P C) (le_refl _) hInv₁
  refine ⟨fuel + 1, r, ?_⟩
  have hg : anyIsEmpty ((initState (Q := Q) (V := V) P).results.getD 1 []) = true := by
    rw [init_row P 1 (le_refl 1) hn]
    have hk1 : 1 ≤ P.k 1 := hk 1 (le_refl 1) hn
    cases hke : P.k 1 with
    | zero => omega
    | succ m => simp [anyIsEmpty, List.replicate_succ]
  rw [loopRun_succ_step P C fuel (initState P) (initDescended P C)
    [TraceEv.getFinalStateCall 0] hg hstep]
  exact hr

theorem tree_traversal_loop_terminates_witness :
    ∃ fuel r, loopRun witParams witCollabPrune fuel
      (initState (Q := Unit) (V := Unit) witParams) = some (some r) :=
  tree_traversal_loop_terminates witParams witCollabPrune (le_refl 1)
    (fun _ _ _ => one_le_two)

/-! ### The remaining claims about `branch_state` and the splitter -/

/-- Claim C1 (amended): `branch_state` computes the 2-norm of the state
collapsed by the outcome's operator; when that norm is below
`NORM_TOL = 1e-10` — equivalently, when the squared-norm probability is
below `1e-20` — it returns probability exactly `0.0` with the
unnormalized state; otherwise it returns the state divided by the norm
and, unless the node is a post-selected mid-circuit measurement, reports
the squared norm as the probability.  (The source's pruning threshold is
on the norm, not on the probability.) -/
theorem branch_state_norm_and_renormalization (op : ChannelOp) (state : List ℝ)
    (index : ℕ) :
    (qmlNorm (op.applyKraus index state) < NORM_TOL →
      branch_state state op index = (op.applyKraus index state, 0.0)) ∧
    (¬ qmlNorm (op.applyKraus index state) < NORM_TOL →
      (branch_state state op index).1
        = (op.applyKraus index state).map
            (fun a => a / qmlNorm (op.applyKraus index state))) ∧
    (¬ qmlNorm (op.applyKraus index state) < NORM_TOL →
      ¬ (op.isMidMeasure = true ∧ op.postselect ≠ none) →
      (branch_state state op index).2 = squaredNorm (op.applyKraus index state)) :=
  ⟨(branch_state_cases op state index).1, (branch_state_cases op state index).2.1,
    (branch_state_cases op state index).2.2.1⟩

/-- A channel node whose Kraus application is the identity (the external
`apply_operation` collaborator is arbitrary), not a measurement. -/
def witOpPlain : ChannelOp := ⟨fun _ s => s, false, none⟩

theorem witOpPlain_norm_one : qmlNorm (witOpPlain.applyKraus 0 [1, 0]) = 1 := by
  have h1 : squaredNorm (witOpPlain.applyKraus 0 [1, 0]) = 1 := by
    show ([(1 : ℝ), 0].map (fun a => a ^ 2)).sum = 1
    norm_num
  rw [qmlNorm, h1, Real.sqrt_one]

theorem branch_state_norm_and_renormalization_witness :
    (branch_state [1, 0] witOpPlain 0).2
      = squaredNorm (witOpPlain.applyKraus 0 [1, 0]) :=
  (branch_state_norm_and_renormalization witOpPlain [1, 0] 0).2.2
    (by rw [witOpPlain_norm_one, NORM_TOL]; norm_num)
    (by simp [witOpPlain])

theorem witOpPlain_small_norm :
    qmlNorm (witOpPlain.applyKraus 0 [1 / 1000000]) = 1 / 1000000 := by
  have h1 : squaredNorm (witOpPlain.applyKraus 0 [1 / 1000000])
      = ((1 : ℝ) / 1000000) ^ 2 := by
    show ([(1 : ℝ) / 1000000].map (fun a => a ^ 2)).sum = ((1 : ℝ) / 1000000) ^ 2
    norm_num
  rw [qmlNorm, h1, Real.sqrt_sq (by norm_num)]

/-- Counterexample to claim C1 as stated: on the collapsed state
`[1e-6]` the probability is `1e-12 < 1e-10 = ε`, yet `branch_state`
returns that probability rather than `0.0` (the source compares the
*norm* `1e-6`, not the probability, against `NORM_TOL`). -/
theorem branch_state_threshold_counterexample :
    (branch_state [1 / 1000000] witOpPlain 0).2 < NORM_TOL ∧
    (branch_state [1 / 1000000] witOpPlain 0).2 ≠ 0 := by
  have hnot : ¬ qmlNorm (witOpPlain.applyKraus 0 [1 / 1000000]) < NORM_TOL := by
    rw [witOpPlain_small_norm, NORM_TOL]
    norm_num
  have h2 := (branch_state_cases witOpPlain [1 / 1000000] 0).2.2.1 hnot
    (by simp [witOpPlain])
  have hsq : squaredNorm (witOpPlain.applyKraus 0 [1 / 1000000])
      = ((1 : ℝ) / 1000000) ^ 2 := by
    show ([(1 : ℝ) / 1000000].map (fun a => a ^ 2)).sum = ((1 : ℝ) / 1000000) ^ 2
    norm_num
  rw [h2, hsq]
  constructor
  · rw [NORM_TOL]
    norm_num
  · norm_num

/-- Claim C4 (amended): for a post-selected measurement node,
`branch_state` reports probability exactly `1.0` whenever the collapsed
state's norm is at least `NORM_TOL`; when the norm is below `NORM_TOL`
even the accepted branch is pruned with probability `0.0`. -/
theorem branch_state_postselect_probability (op : ChannelOp) (state : List ℝ)
    (index : ℕ) (hm : op.isMidMeasure = true) (hp : op.postselect ≠ none)
    (hn : ¬ qmlNorm (op.applyKraus index state) < NORM_TOL) :
    (branch_state state op index).2 = 1 :=
  (branch_state_cases op state index).2.2.2 hn hm hp

/-- A post-selected mid-circuit measurement node whose accepted-branch
projector acts as the identity on the test state. -/
def witOpPostsel : ChannelOp := ⟨fun _ s => s, true, some 0⟩

theorem branch_state_postselect_probability_witness :
    (branch_state [1, 0] witOpPostsel 0).2 = 1 :=
  branch_state_postselect_probability witOpPostsel [1, 0] 0 rfl
    (by simp [witOpPostsel])
    (by
      have h1 : squaredNorm (witOpPostsel.applyKraus 0 [1, 0]) = 1 := by
        show ([(1 : ℝ), 0].map (fun a => a ^ 2)).sum = 1
        norm_num
      rw [qmlNorm, h1, Real.sqrt_one, NORM_TOL]
      norm_num)

/-- A post-selected mid-circuit measurement node whose projector
annihilates the test state (post-selecting on a zero-amplitude
outcome). -/
def witOpPostselZero : ChannelOp := ⟨fun _ _ => [0], true, some 1⟩

/-- Counterexample to claim C4 as stated: for a post-selected
measurement node whose collapsed state has norm `0 < NORM_TOL`,
`branch_state` reports probability `0.0`, not `1.0` — the reported
probability is *not* `1.0` "regardless of the computed norm". -/
theorem branch_state_postselect_counterexample :
    witOpPostselZero.isMidMeasure = true ∧
    witOpPostselZero.postselect ≠ none ∧
    (branch_state [1] witOpPostselZero 0).2 ≠ 1 := by
  refine ⟨rfl, by simp [witOpPostselZero], ?_⟩
  have hnorm : qmlNorm (witOpPostselZero.applyKraus 0 [1]) = 0 := by
    have h0 : squaredNorm (witOpPostselZero.applyKraus 0 [1]) = 0 := by
      show ([(0 : ℝ)].map (fun a => a ^ 2)).sum = 0
      norm_num
    rw [qmlNorm, h0, Real.sqrt_zero]
  have hlt : qmlNorm (witOpPostselZero.applyKraus 0 [1]) < NORM_TOL := by
    rw [hnorm, NORM_TOL]
    norm_num
  have h1 := (branch_state_cases witOpPostselZero [1] 0).1 hlt
  rw [h1]
  norm_num

/-- Claim C8: `branch_state` never mutates the buffer it is given.  At
the buffer level, the parent buffer `sid` holds the same contents after
the call, the returned buffer is a different, freshly allocated one, and
its contents and the reported probability agree with the value-level
`branch_state`. -/
theorem branch_state_buffers_no_mutation (h : Heap) (sid : ℕ) (op : ChannelOp)
    (index : ℕ) (hsid : sid < h.bufs.length) :
    (branch_state_buffers h sid op index).1.get sid = h.get sid ∧
    (branch_state_buffers h sid op index).2.1 ≠ sid ∧
    (branch_state_buffers h sid op index).1.get
        (branch_state_buffers h sid op index).2.1
      = (branch_state (h.get sid) op index).1 ∧
    (branch_state_buffers h sid op index).2.2
      = (branch_state (h.get sid) op index).2 := by
  have hbuflen : h.bufs.length <
      (h.bufs ++ [op.applyKraus index (h.get sid)]).length := by
    simp
  have hget_new : (Heap.get ⟨h.bufs ++ [op.applyKraus index (h.get sid)]⟩
      h.bufs.length) = op.applyKraus index (h.get sid) := by
    show (h.bufs ++ [op.applyKraus index (h.get sid)]).getD h.bufs.length [] = _
    rw [getD_append_right _ _ _ _ (le_refl _)]
    simp
  have hget_old : (Heap.get ⟨h.bufs ++ [op.applyKraus index (h.get sid)]⟩ sid)
      = h.get sid := by
    show (h.bufs ++ [op.applyKraus index (h.get sid)]).getD sid [] = h.bufs.getD sid []
    exact getD_append_left _ _ _ _ hsid
  simp only [branch_state_buffers, branch_state, Heap.alloc, hget_new, hget_old]
  by_cases hn : qmlNorm (op.applyKraus index (h.get sid)) < NORM_TOL
  · rw [if_pos hn, if_pos hn]
    exact ⟨hget_old, show h.bufs.length ≠ sid by omega, hget_new, rfl⟩
  · rw [if_neg hn, if_neg hn]
    refine ⟨?_, show h.bufs.length ≠ sid by omega, ?_, rfl⟩
    · show ((h.bufs ++ [op.applyKraus index (h.get sid)]).set h.bufs.length
        _).getD sid [] = _
      rw [getD_set_ne _ _ _ _ _ (by omega)]
      exact hget_old
    · show ((h.bufs ++ [op.applyKraus index (h.get sid)]).set h.bufs.length
        _).getD h.bufs.length [] = _
      rw [getD_set_self _ _ _ _ hbuflen]

def witHeap : Heap := ⟨[[1, 0]]⟩

theorem branch_state_buffers_no_mutation_witness :
    ((branch_state_buffers witHeap 0 witOpPlain 0).1.get 0 = witHeap.get 0 ∧
      (branch_state_buffers witHeap 0 witOpPlain 0).2.1 ≠ 0 ∧
      (branch_state_buffers witHeap 0 witOpPlain 0).1.get
          (branch_state_buffers witHeap 0 witOpPlain 0).2.1
        = (branch_state (witHeap.get 0) witOpPlain 0).1 ∧
      (branch_state_buffers witHeap 0 witOpPlain 0).2.2
        = (branch_state (witHeap.get 0) witOpPlain 0).2) :=
  branch_state_buffers_no_mutation witHeap 0 witOpPlain 0 (by norm_num [witHeap])

theorem getD_mem {α : Type} (l : List α) (i : ℕ) (d : α) (h : i < l.length) :
    l.getD i d ∈ l := by
  induction l generalizing i with
  | nil => simp at h
  | cons x t ih =>
    cases i with
    | zero => exact List.mem_cons_self _ _
    | succ j =>
      simp only [List.length_cons, Nat.succ_lt_succ_iff] at h
      exact List.mem_cons_of_mem _ (ih j h)

/-- Claim C9: for a circuit with `n` channel nodes,
`split_circuit_at_nodes` returns exactly `n + 1` segments; interleaving
the segments with the channel nodes (in order) reconstructs the original
operation list — so segment `i` consists of precisely the operations
strictly between channel `i` and channel `i + 1`, in order — no segment
contains a channel; the first `n` segments carry no measurements and the
last carries the circuit's terminal measurements. -/
theorem split_circuit_at_nodes_spec (c : Circuit) :
    (split_circuit_at_nodes c).length = c.operations.countP (·.isChannel) + 1 ∧
    reassemble ((split_circuit_at_nodes c).map (fun seg => seg.operations))
        (c.operations.filter (·.isChannel)) = c.operations ∧
    (∀ seg ∈ split_circuit_at_nodes c, ∀ o ∈ seg.operations, o.isChannel = false) ∧
    (∀ i, i < c.operations.countP (·.isChannel) →
      ((split_circuit_at_nodes c).getD i ⟨[], [], 0⟩).measurements = []) ∧
    ((split_circuit_at_nodes c).getD (c.operations.countP (·.isChannel))
        ⟨[], [], 0⟩).measurements = c.measurements := by
  have hlen_pre : (segsOf c.operations c.shots 0 (channelSplits 0 c.operations)).length
      = c.operations.countP (·.isChannel) := by
    have htot := split_circuit_at_nodes_length c
    rw [split_circuit_at_nodes_eq] at htot
    rw [List.length_append] at htot
    simp only [List.length_singleton] at htot
    omega
  refine ⟨split_circuit_at_nodes_length c, ?_, ?_, ?_, ?_⟩
  · rw [split_circuit_at_nodes_map_operations]
    exact reassemble_splitOnChannels c.operations
  · intro seg hseg o ho
    have hm : seg.operations ∈ (split_circuit_at_nodes c).map (fun seg => seg.operations) :=
      List.mem_map_of_mem _ hseg
    rw [split_circuit_at_nodes_map_operations] at hm
    exact splitOnChannels_no_channels c.operations seg.operations hm o ho
  · intro i hi
    rw [split_circuit_at_nodes_eq, getD_append_left _ _ _ _ (by omega)]
    exact segsOf_measurements c.operations c.shots _ _ _
      (getD_mem _ _ _ (by omega))
  · rw [split_circuit_at_nodes_eq, getD_append_right _ _ _ _ (by omega)]
    rw [hlen_pre, Nat.sub_self]
    rfl

def witCircuit : Circuit :=
  ⟨[⟨false, 0⟩, ⟨true, 1⟩, ⟨false, 2⟩], [7], 5⟩

theorem split_circuit_at_nodes_spec_witness :
    (split_circuit_at_nodes witCircuit).length
      = witCircuit.operations.countP (·.isChannel) + 1 :=
  (split_circuit_at_nodes_spec witCircuit).1

end TreeSimulate
